import Mathlib

/-!
Verification development for the `tornado-middleware` library.

The development shallowly embeds the three components of the library:

* `callback_engine` (src/tornado_middleware/decorators.py): a decorator that
  wraps a callable (plain function or generator) so that it runs to
  completion and then invokes a supplied completion callback.
* `MiddlewareRequestMeta.__new__` (src/tornado_middleware/middleware_request.py):
  assembly of the effective `middleware` class list from the base classes'
  lists and the class's own additions.
* `MiddlewareRequestHandler._execute` (src/tornado_middleware/middleware_request.py):
  the pipeline executor sequencing VALIDATE, PREPARE, decode, BEFORE stages,
  the action, AFTER stages, deferred redirect / finish, and AFTER_FINISH
  stages, with `InterruptRequest` handling and a re-entrancy guard.

Machine-level behaviours of external collaborators (tornado's `Runner`,
`decode_argument`, `prepare`, `check_xsrf_cookie`, the transport) are
abstracted as parameters or as events in a trace, exactly at the interface
boundaries the code uses them.
-/

namespace TornadoMiddleware

/-! ### Continuation adapter: `callback_engine` (decorators.py, lines 58-92)

The wrapper pops the `callback` keyword argument, invokes the inner
callable, and:
* if the inner callable raised before returning (so before any suspension),
  the exception propagates synchronously (`handle_exception` returns `False`
  when `runner is None`) and `_done` is never reached;
* if it returned a generator, a `tornado.gen.Runner` drives it: each
  `yield`ed `Task` is resumed when its asynchronous result arrives; an
  error arriving during a suspended step is thrown back into the generator
  (via `runner.handle_exception`), where the generator may catch it and
  continue, or let it escape, in which case the `Runner` re-raises without
  calling its final callback; on `StopIteration` the `Runner` calls the
  final callback `_done` exactly once;
* if it returned `None` (a plain function), `_done` is called immediately;
* any other return value trips the `assert gen is None` contract check.

`_done` deactivates the `ExceptionStackContext` and then calls the supplied
callback (if any).
-/

/-- Observable outcome of one step of a generator driven by the `Runner`:
the generator `yield`s a `Task` whose asynchronous result later arrives
normally (`yieldOk`), or arrives as an error that is thrown into the
generator and caught there (`yieldErrCaught`), or arrives as an error the
generator does not catch, so `gen.throw` re-raises out of the `Runner`
(`yieldErrUncaught`). -/
inductive GStep
  | yieldOk
  | yieldErrCaught
  | yieldErrUncaught
deriving DecidableEq, Repr

/-- Behaviour of a callable as observed by the `callback_engine` wrapper:
a plain function returning `None`, a plain function returning some other
value (tripping `assert gen is None`), a callable raising before producing
a generator, or a generator with its step sequence and a flag telling
whether it ends in `StopIteration` (`true`) or in an uncaught raise
(`false`). -/
inductive FuncBeh
  | plainNone
  | plainValue
  | plainRaise
  | gen (steps : List GStep) (stops : Bool)
deriving DecidableEq, Repr

/-- State accumulated by one invocation of the wrapper: how many times the
supplied callback has been invoked, and whether the error boundary has been
deactivated. -/
structure WrapState where
  callbackCalls : Nat
  deactivated : Bool
deriving DecidableEq, Repr

/-- The `_done` closure of `callback_engine.wrapper` (decorators.py lines
74-77): deactivate the stack context, then invoke the callback when one was
supplied. -/
def doneCB (hasCallback : Bool) (s : WrapState) : WrapState :=
  { deactivated := true
    callbackCalls := s.callbackCalls + (if hasCallback then 1 else 0) }

/-- The `Runner.run` drive loop as observed through `callback_engine`:
resumption steps are consumed in order; an uncaught error during a step
aborts the run without invoking the final callback; `StopIteration`
(`stops = true`) invokes the final callback `_done` exactly once. The
returned `Bool` records whether an exception propagated out. -/
def runnerRun (hasCallback : Bool) : List GStep → Bool → WrapState → WrapState × Bool
  | [], stops, s => if stops then (doneCB hasCallback s, false) else (s, true)
  | GStep.yieldOk :: rest, stops, s => runnerRun hasCallback rest stops s
  | GStep.yieldErrCaught :: rest, stops, s => runnerRun hasCallback rest stops s
  | GStep.yieldErrUncaught :: _, _, s => (s, true)

/-- The body of `callback_engine.wrapper` (decorators.py lines 59-92):
pop the callback, invoke the inner callable, then dispatch on the result.
Returns the final `WrapState` together with a flag telling whether an
exception propagated to the wrapper's caller. -/
def wrapper (hasCallback : Bool) (f : FuncBeh) : WrapState × Bool :=
  let s0 : WrapState := { callbackCalls := 0, deactivated := false }
  match f with
  | FuncBeh.plainRaise => (s0, true)
  | FuncBeh.plainValue => (s0, true)
  | FuncBeh.plainNone => (doneCB hasCallback s0, false)
  | FuncBeh.gen steps stops => runnerRun hasCallback steps stops s0

/-! ### Middleware class-list assembly: `MiddlewareRequestMeta.__new__`
(middleware_request.py, lines 22-29)

```python
middleware = dct.get('middleware', [])
for base in bases:
    base_middleware = getattr(base, 'middleware', [])
    middleware = base_middleware + middleware
dct['middleware'] = middleware
```
-/

/-- The `middleware` list computed by `MiddlewareRequestMeta.__new__`:
start from the class's own `middleware` entry and, for each base in
declaration order, prepend that base's `middleware` list. -/
def assembleMiddleware (bases : List (List Nat)) (own : List Nat) : List Nat :=
  bases.foldl (fun acc base => base ++ acc) own

/-! ### Pipeline executor: `MiddlewareRequestHandler._execute`
(middleware_request.py, lines 94-162)

The embedding records, as a trace of events, every call the executor makes
to middleware stages, to the handler action, and to the external
collaborator (`check_xsrf_cookie`, `prepare`, `decode_argument`, the real
`redirect` transport, the real `finish`).  Middleware stages and the
handler action are given by behaviours: a list of handler operations they
perform (calls to the overridden `redirect` / `finish` and to `do_finish`)
followed by an outcome (normal return, `InterruptRequest`, or any other
exception). -/

/-- Decoded or raw positional and keyword arguments: the `args` list and
the `kwargs` association list (name, value). -/
abbrev Args := List Nat × List (Nat × Nat)

/-- One observable call made during a dispatch. -/
inductive Event
  | checkXsrfE
  | prepareE
  | decodePosE (raw : Nat)
  | decodeKwE (name : Nat) (raw : Nat)
  | beforeE (i : Nat)
  | actionE (a : Args)
  | afterE (i : Nat)
  | applyRedirectE (target : Nat)
  | doFinishE
  | afterFinishE (i : Nat)
deriving DecidableEq, Repr

/-- Outcome of a middleware stage or of the handler action: normal return,
`raise InterruptRequest`, or any other exception. -/
inductive Outcome
  | ok
  | interrupt
  | error
deriving DecidableEq, Repr

/-- Handler operations a stage or the action may perform on the handler:
`hredirect t` is `self.redirect(...)` (stores the directive, target
abstracted as `t`); `hfinish` is the overridden no-op `self.finish()`;
`hdoFinish` is `self.do_finish()` (the real `RequestHandler.finish`). -/
inductive HOp
  | hredirect (target : Nat)
  | hfinish
  | hdoFinish
deriving DecidableEq, Repr

/-- Behaviour of one stage method (or of the handler action): the handler
operations it performs, then its outcome. -/
structure StageBeh where
  ops : List HOp
  outcome : Outcome
deriving DecidableEq, Repr

/-- Behaviour of one middleware class: its three stage methods. -/
structure MWBeh where
  before : StageBeh
  after : StageBeh
  after_finish : StageBeh
deriving DecidableEq, Repr

/-- The per-request mutable state of `MiddlewareRequestHandler`:
`_called_once`, `_redirection`, `_cached_args`, and tornado's `_finished`
flag (set by the real `finish`). -/
structure HState where
  called_once : Bool
  redirection : Option Nat
  cached_args : Option Args
  finished : Bool
deriving DecidableEq, Repr

/-- Handler state as set up by `MiddlewareRequestHandler.__init__`. -/
def initHState : HState :=
  { called_once := false, redirection := none, cached_args := none
    finished := false }

/-- Exceptions that can escape `_execute`: an `HTTPError` with its status
code, an `InterruptRequest` raised outside the guarded `try` block, or any
other stage/action exception. -/
inductive PyErr
  | httpError (code : Nat)
  | interruptEscaped
  | stageError
deriving DecidableEq, Repr

/-- Static configuration of one dispatch: the middleware class list (as
behaviours, in class-list order), the behaviour of the `get`/`post`/...
action, the request-method facts VALIDATE consults, the XSRF settings, and
the external `decode_argument` collaborator (positional and named). -/
structure Config where
  middleware : List MWBeh
  actionBeh : StageBeh
  methodSupported : Bool
  methodSafe : Bool
  xsrfCookies : Bool
  xsrfOk : Bool
  decodeP : Nat → Nat
  decodeK : Nat → Nat → Nat

/-- Effect of one handler operation on the handler state.
`self.redirect(*a, **kw)` stores `(a, kw)` into `_redirection`
(middleware_request.py lines 80-81); the overridden `finish` does nothing
(line 83-84); `do_finish` calls the real `RequestHandler.finish`, which
flushes the response and sets `_finished` (lines 91-92). -/
def runOp (s : HState) : HOp → HState × List Event
  | HOp.hredirect t => ({ s with redirection := some t }, [])
  | HOp.hfinish => (s, [])
  | HOp.hdoFinish => ({ s with finished := true }, [Event.doFinishE])

/-- Run a list of handler operations in order. -/
def runOps (s : HState) : List HOp → HState × List Event
  | [] => (s, [])
  | op :: rest =>
    let r1 := runOp s op
    let r2 := runOps r1.1 rest
    (r2.1, r1.2 ++ r2.2)

/-- Result of the BEFORE loop, or of the whole guarded `try` block:
final handler state, trace of events, the `executed_middleware` list
(pairs of class-list index and behaviour, in the list's own order — new
entries are inserted at the front, line 134), and the outcome with which
the block ended. -/
structure PhaseRes where
  state : HState
  trace : List Event
  executed : List (Nat × MWBeh)
  outcome : Outcome
deriving Repr

/-- The BEFORE loop (middleware_request.py lines 131-135): for each
middleware class in order, construct the instance, insert it at the front
of `executed_middleware`, then run its `before` stage.  A non-`ok` outcome
stops the loop there; the raising middleware is already in the executed
list. -/
def runBefores (s : HState) : List MWBeh → Nat → PhaseRes
  | [], _ => { state := s, trace := [], executed := [], outcome := Outcome.ok }
  | mw :: rest, i =>
    let r := runOps s mw.before.ops
    match mw.before.outcome with
    | Outcome.ok =>
      let rec_ := runBefores r.1 rest (i + 1)
      { state := rec_.state
        trace := (Event.beforeE i :: r.2) ++ rec_.trace
        executed := rec_.executed ++ [(i, mw)]
        outcome := rec_.outcome }
    | oc =>
      { state := r.1, trace := Event.beforeE i :: r.2
        executed := [(i, mw)], outcome := oc }

/-- The action step (middleware_request.py lines 140-144): invoke the
handler method for the request's method name with the decoded arguments. -/
def runAction (cfg : Config) (a : Args) (s : HState) : HState × List Event × Outcome :=
  let r := runOps s cfg.actionBeh.ops
  (r.1, Event.actionE a :: r.2, cfg.actionBeh.outcome)

/-- Result of an AFTER / AFTER_FINISH loop: state, trace, and the escaped
exception when one of the stages did not return normally (these loops run
outside the `try`, so even an `InterruptRequest` escapes). -/
structure LoopRes where
  state : HState
  trace : List Event
  err : Option PyErr
deriving Repr

/-- One of the two cleanup loops (middleware_request.py lines 150-151 and
161-162): iterate `executed_middleware` in its own order (reverse entry
order), running the selected stage of each entry; any non-`ok` outcome
escapes as an exception and aborts the loop. -/
def runStageLoop (ev : Nat → Event) (sel : MWBeh → StageBeh) (s : HState) :
    List (Nat × MWBeh) → LoopRes
  | [] => { state := s, trace := [], err := none }
  | (i, mw) :: rest =>
    let r := runOps s (sel mw).ops
    match (sel mw).outcome with
    | Outcome.ok =>
      let rec_ := runStageLoop ev sel r.1 rest
      { state := rec_.state, trace := (ev i :: r.2) ++ rec_.trace
        err := rec_.err }
    | Outcome.interrupt =>
      { state := r.1, trace := ev i :: r.2, err := some PyErr.interruptEscaped }
    | Outcome.error =>
      { state := r.1, trace := ev i :: r.2, err := some PyErr.stageError }

/-- `try_redirect` (middleware_request.py lines 86-89): when a redirect
directive is pending, perform the real redirect transport call.  The real
`RequestHandler.redirect` internally calls `self.finish()`, which here is
the overridden no-op, so the handler state is unchanged. -/
def tryRedirect (s : HState) : HState × List Event :=
  match s.redirection with
  | some t => (s, [Event.applyRedirectE t])
  | none => (s, [])

/-- VALIDATE (middleware_request.py lines 110-117): reject unsupported
request methods with `HTTPError(405)`; when XSRF cookies are enabled and
the method is not `GET`/`HEAD`/`OPTIONS`, call `check_xsrf_cookie`, which
raises `HTTPError(403)` on a missing or wrong token. -/
def validateStep (cfg : Config) : List Event × Option PyErr :=
  if !cfg.methodSupported then ([], some (PyErr.httpError 405))
  else if !cfg.methodSafe && cfg.xsrfCookies then
    if cfg.xsrfOk then ([Event.checkXsrfE], none)
    else ([Event.checkXsrfE], some (PyErr.httpError 403))
  else ([], none)

/-- Argument decoding with cache (middleware_request.py lines 121-128):
reuse `_cached_args` when present; otherwise decode every positional and
keyword argument through `decode_argument` and cache the result. -/
def decodeStep (cfg : Config) (args : List Nat) (kwargs : List (Nat × Nat))
    (s : HState) : HState × List Event × Args :=
  match s.cached_args with
  | some c => (s, [], c)
  | none =>
    let dec : Args :=
      (args.map cfg.decodeP, kwargs.map fun p => (p.1, cfg.decodeK p.1 p.2))
    ({ s with cached_args := some dec },
     args.map Event.decodePosE ++ kwargs.map (fun p => Event.decodeKwE p.1 p.2),
     dec)

/-- The cleanup phase run when `run_middleware` holds (middleware_request.py
lines 149-162): the AFTER loop over `executed_middleware`, then
`try_redirect`, then — only when the response is not already finished —
`do_finish`, then the AFTER_FINISH loop over the same list. -/
def cleanup (executed : List (Nat × MWBeh)) (s : HState) : LoopRes :=
  let aft := runStageLoop Event.afterE (fun mw => mw.after) s executed
  match aft.err with
  | some e => { state := aft.state, trace := aft.trace, err := some e }
  | none =>
    let tr := tryRedirect aft.state
    let fin : HState × List Event :=
      if tr.1.finished then (tr.1, tr.2)
      else ({ tr.1 with finished := true }, tr.2 ++ [Event.doFinishE])
    let af := runStageLoop Event.afterFinishE (fun mw => mw.after_finish) fin.1 executed
    { state := af.state, trace := aft.trace ++ fin.2 ++ af.trace, err := af.err }

/-- Result of one invocation of `_execute`: final handler state, trace of
observable calls, and the exception that escaped, if any. -/
structure ExecResult where
  state : HState
  trace : List Event
  err : Option PyErr
deriving Repr

/-- `MiddlewareRequestHandler._execute` (middleware_request.py lines
94-162).  `run_middleware` is `not self._called_once`; `_called_once` is
set immediately.  On a first call: VALIDATE, `prepare()`, decode (with
cache), then the guarded `try` block (BEFORE loop and action) whose
`InterruptRequest` is swallowed, then the cleanup phase.  On a re-entrant
call: only the decode cache lookup and the action run; the `except
InterruptRequest: pass` still applies; no cleanup runs. -/
def execute (cfg : Config) (args : List Nat) (kwargs : List (Nat × Nat))
    (s0 : HState) : ExecResult :=
  let run_middleware := !s0.called_once
  let s := { s0 with called_once := true }
  let v : List Event × Option PyErr :=
    if run_middleware then validateStep cfg else ([], none)
  match v.2 with
  | some e => { state := s, trace := v.1, err := some e }
  | none =>
    let preTrace := v.1 ++ (if run_middleware then [Event.prepareE] else [])
    let d := decodeStep cfg args kwargs s
    let tryRes : PhaseRes :=
      if run_middleware then
        let b := runBefores d.1 cfg.middleware 0
        match b.outcome with
        | Outcome.ok =>
          let act := runAction cfg d.2.2 b.state
          { state := act.1, trace := b.trace ++ act.2.1
            executed := b.executed, outcome := act.2.2 }
        | _ => b
      else
        let act := runAction cfg d.2.2 d.1
        { state := act.1, trace := act.2.1, executed := [], outcome := act.2.2 }
    match tryRes.outcome with
    | Outcome.error =>
      { state := tryRes.state, trace := preTrace ++ d.2.1 ++ tryRes.trace
        err := some PyErr.stageError }
    | _ =>
      if run_middleware then
        let c := cleanup tryRes.executed tryRes.state
        { state := c.state, trace := preTrace ++ d.2.1 ++ tryRes.trace ++ c.trace
          err := c.err }
      else
        { state := tryRes.state, trace := preTrace ++ d.2.1 ++ tryRes.trace
          err := none }

/-! ### Derived observations used by the statements -/

/-- Classifier extracting the middleware index from an `after` call event. -/
def afterIdx : Event → Option Nat
  | Event.afterE i => some i
  | _ => none

/-- Classifier extracting the middleware index from an `after_finish` call
event. -/
def afterFinishIdx : Event → Option Nat
  | Event.afterFinishE i => some i
  | _ => none

/-- Classifier extracting the target of a real redirect transport call. -/
def applyIdx : Event → Option Nat
  | Event.applyRedirectE t => some t
  | _ => none

/-- Classifier extracting the argument tuple handed to the handler action. -/
def actionArgs : Event → Option Args
  | Event.actionE a => some a
  | _ => none

/-- Number of middleware whose `before` stage is entered by the BEFORE
loop: every middleware up to and including the first whose `before` does
not return normally. -/
def enteredCount : List MWBeh → Nat
  | [] => 0
  | mw :: rest =>
    if mw.before.outcome = Outcome.ok then enteredCount rest + 1 else 1

/-- The target stored by a `self.redirect` handler operation, if it is
one. -/
def redirTarget : HOp → Option Nat
  | HOp.hredirect t => some t
  | _ => none

/-- Targets of all `self.redirect` calls in an operation list, in call
order. -/
def redirTargets (l : List HOp) : List Nat :=
  l.filterMap redirTarget

/-- A stage that performs no handler operation and returns normally (the
default, unoverridden middleware stage). -/
def noopStage : StageBeh := { ops := [], outcome := Outcome.ok }

/-- A middleware all of whose stages are default no-ops. -/
def noopMW : MWBeh := { before := noopStage, after := noopStage, after_finish := noopStage }

/-- A concrete dispatch configuration used to exercise the theorems: a
supported, XSRF-exempt request with a concrete `decode_argument`
collaborator. -/
def mkConfig (mws : List MWBeh) (act : StageBeh) : Config :=
  { middleware := mws, actionBeh := act, methodSupported := true
    methodSafe := true, xsrfCookies := false, xsrfOk := true
    decodeP := fun n => n + 100, decodeK := fun n v => n + v }

/-! ### Lemmas about the continuation adapter -/

/-- The `Runner` drive loop invokes its final callback exactly once when
the run ends without an escaping exception, and not at all when an
exception escapes. -/
theorem runnerRun_calls (steps : List GStep) (stops : Bool) (s : WrapState) :
    ((runnerRun true steps stops s).2 = false →
        (runnerRun true steps stops s).1.callbackCalls = s.callbackCalls + 1) ∧
      ((runnerRun true steps stops s).2 = true →
        (runnerRun true steps stops s).1.callbackCalls = s.callbackCalls) := by
  induction steps with
  | nil =>
    cases stops <;> simp [runnerRun, doneCB]
  | cons st rest ih =>
    cases st with
    | yieldOk => simpa [runnerRun] using ih
    | yieldErrCaught => simpa [runnerRun] using ih
    | yieldErrUncaught => simp [runnerRun]

/-- C1, counterexample.  A callable that raises before producing a
suspension (here: a plain function that raises) propagates the exception
synchronously and the supplied completion callback is invoked zero times —
not once — contradicting "never zero times … regardless of the path taken
(normal return, suspension chain, or error)". -/
theorem wrapper_sync_error_zero_callbacks :
    (wrapper true FuncBeh.plainRaise).2 = true ∧
      (wrapper true FuncBeh.plainRaise).1.callbackCalls = 0 ∧
      (wrapper true FuncBeh.plainRaise).1.callbackCalls ≠ 1 := by
  decide

/-- C1, amended.  For every callable wrapped by `callback_engine`, a
supplied completion callback is invoked at most once, and exactly once
whenever the invocation completes without an exception escaping (plain
return, or a suspension chain driven to completion, including steps whose
errors the generator catches); when an error escapes — synchronously or
from a suspended step — the callback is not invoked. -/
theorem wrapper_callback_once_on_completion (f : FuncBeh) :
    (wrapper true f).1.callbackCalls ≤ 1 ∧
      ((wrapper true f).2 = false → (wrapper true f).1.callbackCalls = 1) ∧
      ((wrapper true f).2 = true → (wrapper true f).1.callbackCalls = 0) := by
  cases f with
  | plainNone => simp [wrapper, doneCB]
  | plainValue => simp [wrapper]
  | plainRaise => simp [wrapper]
  | gen steps stops =>
    have h := runnerRun_calls steps stops { callbackCalls := 0, deactivated := false }
    refine ⟨?_, by simpa [wrapper] using h.1, by simpa [wrapper] using h.2⟩
    cases hr : (runnerRun true steps stops
        { callbackCalls := 0, deactivated := false }).2 with
    | false => simpa [wrapper] using Nat.le_of_eq (h.1 hr)
    | true => simpa [wrapper] using Nat.le_of_lt (Nat.lt_succ_of_le (Nat.le_of_eq (h.2 hr)))

/-- C1, witness: a two-step suspending callable that completes invokes the
supplied callback exactly once, and one whose suspended step's error goes
uncaught invokes it zero times. -/
theorem wrapper_callback_once_on_completion_witness :
    (wrapper true (FuncBeh.gen [GStep.yieldOk, GStep.yieldErrCaught] true)).1.callbackCalls = 1 ∧
      (wrapper true (FuncBeh.gen [GStep.yieldErrUncaught] true)).1.callbackCalls = 0 :=
  ⟨(wrapper_callback_once_on_completion
      (FuncBeh.gen [GStep.yieldOk, GStep.yieldErrCaught] true)).2.1 (by decide),
    (wrapper_callback_once_on_completion
      (FuncBeh.gen [GStep.yieldErrUncaught] true)).2.2 (by decide)⟩

/-! ### Lemmas about the middleware class-list assembly -/

/-- C3, counterexample.  With two base classes declared in the order
`[1]`, `[2]` and own additions `[3]`, `MiddlewareRequestMeta.__new__`
produces `[2, 1, 3]`, not the ancestor-order concatenation `[1, 2, 3]`
claimed by the specification. -/
theorem assembleMiddleware_not_ancestor_order :
    assembleMiddleware [[1], [2]] [3] = [2, 1, 3] ∧
      assembleMiddleware [[1], [2]] [3] ≠ [1, 2, 3] := by
  decide

/-- C3, amended.  The effective middleware class list equals the base
classes' lists concatenated in reverse base-declaration order (each base's
list itself already carrying its own additions after its inherited ones),
followed by the subtype's own additions appended last. -/
theorem assembleMiddleware_reverse_base_order (bases : List (List Nat)) (own : List Nat) :
    assembleMiddleware bases own = bases.reverse.flatten ++ own := by
  induction bases generalizing own with
  | nil => simp [assembleMiddleware]
  | cons b bs ih =>
    have h := ih (b ++ own)
    simp only [assembleMiddleware, List.foldl_cons] at h ⊢
    rw [h]
    simp [List.flatten_append, List.append_assoc]

/-! ### Trace-shape lemmas for the pipeline phases -/

/-- Handler operations emit at most real-finish events. -/
theorem runOps_events (s : HState) (l : List HOp) :
    ∀ e ∈ (runOps s l).2, e = Event.doFinishE := by
  induction l generalizing s with
  | nil => simp [runOps]
  | cons op rest ih =>
    intro e he
    cases op with
    | hredirect t => exact ih _ e (by simpa [runOps, runOp] using he)
    | hfinish => exact ih _ e (by simpa [runOps, runOp] using he)
    | hdoFinish =>
      rcases (by simpa [runOps, runOp] using he : e = Event.doFinishE ∨ _) with h | h
      · exact h
      · exact ih _ e h

/-- A classifier that ignores real-finish events extracts nothing from the
events of a handler-operation run. -/
theorem runOps_filterMap {α : Type} (f : Event → Option α)
    (hf : f Event.doFinishE = none) (s : HState) (l : List HOp) :
    (runOps s l).2.filterMap f = [] := by
  refine List.filterMap_eq_nil_iff.mpr ?_
  intro e he
  rw [runOps_events s l e he]
  exact hf

/-- The BEFORE loop emits only `before`-entry events and real-finish
events. -/
theorem runBefores_events (l : List MWBeh) (s : HState) (i : Nat) :
    ∀ e ∈ (runBefores s l i).trace,
      (∃ j, e = Event.beforeE j) ∨ e = Event.doFinishE := by
  induction l generalizing s i with
  | nil => simp [runBefores]
  | cons mw rest ih =>
    intro e he
    cases hoc : mw.before.outcome with
    | ok =>
      simp only [runBefores, hoc] at he
      rcases List.mem_append.mp he with h | h
      · rcases List.mem_cons.mp h with h | h
        · exact Or.inl ⟨i, h⟩
        · exact Or.inr (runOps_events _ _ e h)
      · exact ih _ _ e h
    | interrupt =>
      simp only [runBefores, hoc] at he
      rcases List.mem_cons.mp he with h | h
      · exact Or.inl ⟨i, h⟩
      · exact Or.inr (runOps_events _ _ e h)
    | error =>
      simp only [runBefores, hoc] at he
      rcases List.mem_cons.mp he with h | h
      · exact Or.inl ⟨i, h⟩
      · exact Or.inr (runOps_events _ _ e h)

/-- A cleanup loop emits only its own stage events and real-finish
events. -/
theorem runStageLoop_events (ev : Nat → Event) (sel : MWBeh → StageBeh)
    (l : List (Nat × MWBeh)) (s : HState) :
    ∀ e ∈ (runStageLoop ev sel s l).trace,
      (∃ j, e = ev j) ∨ e = Event.doFinishE := by
  induction l generalizing s with
  | nil => simp [runStageLoop]
  | cons p rest ih =>
    intro e he
    obtain ⟨i, mw⟩ := p
    cases hoc : (sel mw).outcome with
    | ok =>
      simp only [runStageLoop, hoc] at he
      rcases List.mem_append.mp he with h | h
      · rcases List.mem_cons.mp h with h | h
        · exact Or.inl ⟨i, h⟩
        · exact Or.inr (runOps_events _ _ e h)
      · exact ih _ e h
    | interrupt =>
      simp only [runStageLoop, hoc] at he
      rcases List.mem_cons.mp he with h | h
      · exact Or.inl ⟨i, h⟩
      · exact Or.inr (runOps_events _ _ e h)
    | error =>
      simp only [runStageLoop, hoc] at he
      rcases List.mem_cons.mp he with h | h
      · exact Or.inl ⟨i, h⟩
      · exact Or.inr (runOps_events _ _ e h)

/-- VALIDATE emits at most the XSRF-check call. -/
theorem validateStep_events (cfg : Config) :
    ∀ e ∈ (validateStep cfg).1, e = Event.checkXsrfE := by
  unfold validateStep
  split
  · simp
  · split
    · split <;> simp
    · simp

/-- Argument decoding emits only decode events. -/
theorem decodeStep_events (cfg : Config) (args : List Nat)
    (kwargs : List (Nat × Nat)) (s : HState) :
    ∀ e ∈ (decodeStep cfg args kwargs s).2.1,
      (∃ r, e = Event.decodePosE r) ∨ ∃ n r, e = Event.decodeKwE n r := by
  unfold decodeStep
  intro e he
  cases hc : s.cached_args with
  | some c => simp [hc] at he
  | none =>
    simp only [hc, List.mem_append, List.mem_map] at he
    rcases he with ⟨r, _, h⟩ | ⟨p, _, h⟩
    · exact Or.inl ⟨r, h.symm⟩
    · exact Or.inr ⟨p.1, p.2, h.symm⟩

/-- The deferred redirect step emits at most the one transport call. -/
theorem tryRedirect_events (s : HState) :
    ∀ e ∈ (tryRedirect s).2, ∃ t, e = Event.applyRedirectE t := by
  unfold tryRedirect
  cases s.redirection <;> simp

/-! ### State-threading lemmas for the pipeline phases -/

/-- Handler operations never touch the re-entrancy flag or the argument
cache. -/
theorem runOps_pres (s : HState) (l : List HOp) :
    (runOps s l).1.called_once = s.called_once ∧
      (runOps s l).1.cached_args = s.cached_args := by
  induction l generalizing s with
  | nil => simp [runOps]
  | cons op rest ih =>
    cases op <;> simpa [runOps, runOp] using ih _

/-- The BEFORE loop never touches the re-entrancy flag or the argument
cache. -/
theorem runBefores_pres (l : List MWBeh) (s : HState) (i : Nat) :
    (runBefores s l i).state.called_once = s.called_once ∧
      (runBefores s l i).state.cached_args = s.cached_args := by
  induction l generalizing s i with
  | nil => simp [runBefores]
  | cons mw rest ih =>
    cases hoc : mw.before.outcome with
    | ok =>
      have h1 := runOps_pres s mw.before.ops
      have h2 := ih (runOps s mw.before.ops).1 (i + 1)
      simp only [runBefores, hoc]
      exact ⟨h2.1.trans h1.1, h2.2.trans h1.2⟩
    | interrupt => simpa [runBefores, hoc] using runOps_pres s mw.before.ops
    | error => simpa [runBefores, hoc] using runOps_pres s mw.before.ops

/-- A cleanup loop never touches the re-entrancy flag or the argument
cache. -/
theorem runStageLoop_pres (ev : Nat → Event) (sel : MWBeh → StageBeh)
    (l : List (Nat × MWBeh)) (s : HState) :
    (runStageLoop ev sel s l).state.called_once = s.called_once ∧
      (runStageLoop ev sel s l).state.cached_args = s.cached_args := by
  induction l generalizing s with
  | nil => simp [runStageLoop]
  | cons p rest ih =>
    obtain ⟨i, mw⟩ := p
    cases hoc : (sel mw).outcome with
    | ok =>
      have h1 := runOps_pres s (sel mw).ops
      have h2 := ih (runOps s (sel mw).ops).1
      simp only [runStageLoop, hoc]
      exact ⟨h2.1.trans h1.1, h2.2.trans h1.2⟩
    | interrupt => simpa [runStageLoop, hoc] using runOps_pres s (sel mw).ops
    | error => simpa [runStageLoop, hoc] using runOps_pres s (sel mw).ops

/-- The deferred redirect step does not change the handler state at all:
the real `redirect` ends in a `self.finish()` that dispatches to the
overridden no-op. -/
theorem tryRedirect_state (s : HState) : (tryRedirect s).1 = s := by
  unfold tryRedirect
  cases s.redirection <;> simp

/-- Handler operations that contain no `self.redirect` call leave the
pending redirect directive unchanged. -/
theorem runOps_redirection_of_no_redirect (s : HState) (l : List HOp)
    (h : redirTargets l = []) :
    (runOps s l).1.redirection = s.redirection := by
  induction l generalizing s with
  | nil => simp [runOps]
  | cons op rest ih =>
    cases op with
    | hredirect t => simp [redirTargets, redirTarget, List.filterMap_cons] at h
    | hfinish =>
      simp only [redirTargets, List.filterMap_cons, redirTarget] at h
      simpa [runOps, runOp] using ih _ h
    | hdoFinish =>
      simp only [redirTargets, List.filterMap_cons, redirTarget] at h
      simpa [runOps, runOp] using ih _ h

/-- After a run of handler operations, the pending redirect directive is
the target of the last `self.redirect` call in the run: later calls
overwrite earlier ones. -/
theorem runOps_redirection_last (s : HState) (l : List HOp) (t : Nat)
    (h : (redirTargets l).getLast? = some t) :
    (runOps s l).1.redirection = some t := by
  induction l generalizing s with
  | nil => simp [redirTargets] at h
  | cons op rest ih =>
    cases op with
    | hredirect t0 =>
      simp only [redirTargets, List.filterMap_cons, redirTarget] at h
      rw [List.getLast?_cons] at h
      cases hl : List.filterMap redirTarget rest with
      | nil =>
        rw [hl] at h
        simp only [List.getLast?_nil, Option.getD_none, Option.some.injEq] at h
        subst h
        have hpres := runOps_redirection_of_no_redirect
          (runOp s (HOp.hredirect t0)).1 rest (by simpa [redirTargets] using hl)
        simp only [runOps]
        rw [hpres]
        simp [runOp]
      | cons t1 ts =>
        have hx : (t1 :: ts).getLast? = some (ts.getLast?.getD t1) :=
          List.getLast?_cons
        have hlast : (redirTargets rest).getLast? = some t := by
          rw [hl, hx] at h
          simp only [Option.getD_some, Option.some.injEq] at h
          rw [redirTargets, hl, hx, h]
        simpa [runOps] using ih _ hlast
    | hfinish =>
      simp only [redirTargets, List.filterMap_cons, redirTarget] at h
      simpa [runOps, runOp] using ih _ h
    | hdoFinish =>
      simp only [redirTargets, List.filterMap_cons, redirTarget] at h
      simpa [runOps, runOp] using ih _ h

/-- Once the finished flag is set, no handler operation resets it. -/
theorem runOps_finished_mono (s : HState) (l : List HOp)
    (h : s.finished = true) : (runOps s l).1.finished = true := by
  induction l generalizing s with
  | nil => simpa [runOps] using h
  | cons op rest ih =>
    cases op <;> exact ih _ (by simp [runOp]; try exact h)

/-- A run of handler operations containing a `do_finish` call leaves the
finished flag set. -/
theorem runOps_finished_of_mem (s : HState) (l : List HOp)
    (h : HOp.hdoFinish ∈ l) : (runOps s l).1.finished = true := by
  induction l generalizing s with
  | nil => simp at h
  | cons op rest ih =>
    by_cases hop : op = HOp.hdoFinish
    · subst hop
      exact runOps_finished_mono _ rest (by simp [runOp])
    · have hmem : HOp.hdoFinish ∈ rest := by
        rcases List.mem_cons.mp h with h' | h'
        · exact absurd h'.symm hop
        · exact h'
      clear h
      cases op <;> exact ih _ hmem

/-- A run of handler operations without a `do_finish` call emits no events
at all. -/
theorem runOps_no_doFinish (s : HState) (l : List HOp)
    (h : HOp.hdoFinish ∉ l) : (runOps s l).2 = [] := by
  induction l generalizing s with
  | nil => simp [runOps]
  | cons op rest ih =>
    have hop : op ≠ HOp.hdoFinish := fun he => h (he ▸ List.mem_cons_self op rest)
    have hrest : HOp.hdoFinish ∉ rest := fun he => h (List.mem_cons_of_mem op he)
    cases op with
    | hredirect t => simpa [runOps, runOp] using ih _ hrest
    | hfinish => simpa [runOps, runOp] using ih _ hrest
    | hdoFinish => exact absurd rfl hop

/-- Each `do_finish` handler operation emits exactly one real-finish
event. -/
theorem runOps_count_doFinish (s : HState) (l : List HOp) :
    (runOps s l).2.count Event.doFinishE = l.count HOp.hdoFinish := by
  induction l generalizing s with
  | nil => simp [runOps]
  | cons op rest ih =>
    cases op with
    | hredirect t => simpa [runOps, runOp, List.count_cons] using ih _
    | hfinish => simpa [runOps, runOp, List.count_cons] using ih _
    | hdoFinish =>
      simp only [runOps, runOp, List.count_cons]
      simp [ih]

/-- A cleanup loop over stages that all return normally preserves the
finished flag once it is set. -/
theorem runStageLoop_finished_mono (ev : Nat → Event) (sel : MWBeh → StageBeh)
    (l : List (Nat × MWBeh)) (s : HState) (h : s.finished = true) :
    (runStageLoop ev sel s l).state.finished = true := by
  induction l generalizing s with
  | nil => simpa [runStageLoop]
  | cons p rest ih =>
    obtain ⟨i, mw⟩ := p
    cases hoc : (sel mw).outcome with
    | ok =>
      simp only [runStageLoop, hoc]
      exact ih _ (runOps_finished_mono _ _ h)
    | interrupt =>
      simp only [runStageLoop, hoc]
      exact runOps_finished_mono _ _ h
    | error =>
      simp only [runStageLoop, hoc]
      exact runOps_finished_mono _ _ h

/-! ### The executed-middleware list -/

/-- The `executed_middleware` list built by the BEFORE loop consists, in
reverse entry order, of exactly the first `enteredCount` middleware: every
middleware up to and including the first whose `before` stage does not
return normally. -/
theorem runBefores_executed_map (l : List MWBeh) (s : HState) (i : Nat) :
    (runBefores s l i).executed.map Prod.fst =
      (List.range' i (enteredCount l)).reverse := by
  induction l generalizing s i with
  | nil => simp [runBefores, enteredCount]
  | cons mw rest ih =>
    cases hoc : mw.before.outcome with
    | ok =>
      simp only [runBefores, hoc, enteredCount, if_pos]
      rw [List.map_append, ih _ (i + 1)]
      have : List.range' i (enteredCount rest + 1) = i :: List.range' (i + 1) (enteredCount rest) := rfl
      rw [this]
      simp
    | interrupt =>
      have hne : mw.before.outcome ≠ Outcome.ok := by simp [hoc]
      simp [runBefores, hoc, enteredCount, List.range'_one]
    | error =>
      simp [runBefores, hoc, enteredCount, List.range'_one]

/-- Every behaviour in the executed list is the behaviour of one of the
configured middleware. -/
theorem runBefores_executed_mem (l : List MWBeh) (s : HState) (i : Nat) :
    ∀ p ∈ (runBefores s l i).executed, p.2 ∈ l := by
  induction l generalizing s i with
  | nil => simp [runBefores]
  | cons mw rest ih =>
    intro p hp
    cases hoc : mw.before.outcome with
    | ok =>
      simp only [runBefores, hoc] at hp
      rcases List.mem_append.mp hp with h | h
      · exact List.mem_cons_of_mem mw (ih _ _ p h)
      · rcases List.mem_singleton.mp h with rfl
        exact List.mem_cons_self mw rest
    | interrupt =>
      simp only [runBefores, hoc, List.mem_singleton] at hp
      subst hp
      exact List.mem_cons_self mw rest
    | error =>
      simp only [runBefores, hoc, List.mem_singleton] at hp
      subst hp
      exact List.mem_cons_self mw rest

/-- When no configured `before` stage raises anything but
`InterruptRequest`, the BEFORE loop ends normally or interrupted, never in
an error. -/
theorem runBefores_outcome (l : List MWBeh) (s : HState) (i : Nat)
    (h : ∀ mw ∈ l, mw.before.outcome ≠ Outcome.error) :
    (runBefores s l i).outcome ≠ Outcome.error := by
  induction l generalizing s i with
  | nil => simp [runBefores]
  | cons mw rest ih =>
    cases hoc : mw.before.outcome with
    | ok =>
      simp only [runBefores, hoc]
      exact ih _ _ fun m hm => h m (List.mem_cons_of_mem mw hm)
    | interrupt => simp [runBefores, hoc]
    | error => exact absurd hoc (h mw (List.mem_cons_self mw rest))

/-- A cleanup loop over stages that all return normally runs each entry in
list order: it raises nothing and its stage events are exactly the entry
indices in order. -/
theorem runStageLoop_ok (ev : Nat → Event) (sel : MWBeh → StageBeh)
    (f : Event → Option Nat) (hev : ∀ j, f (ev j) = some j)
    (hdf : f Event.doFinishE = none) (l : List (Nat × MWBeh)) (s : HState)
    (hok : ∀ p ∈ l, (sel p.2).outcome = Outcome.ok) :
    (runStageLoop ev sel s l).err = none ∧
      (runStageLoop ev sel s l).trace.filterMap f = l.map Prod.fst := by
  induction l generalizing s with
  | nil => simp [runStageLoop]
  | cons p rest ih =>
    obtain ⟨i, mw⟩ := p
    have hoc : (sel mw).outcome = Outcome.ok :=
      hok (i, mw) (List.mem_cons_self _ rest)
    have ihr := ih (runOps s (sel mw).ops).1
      (fun q hq => hok q (List.mem_cons_of_mem _ hq))
    simp only [runStageLoop, hoc]
    refine ⟨ihr.1, ?_⟩
    rw [List.filterMap_append, List.filterMap_cons, hev i,
      runOps_filterMap f hdf, ihr.2]
    simp

/-- When every configured `before` stage returns normally, the BEFORE loop
ends normally. -/
theorem runBefores_outcome_ok (l : List MWBeh) (s : HState) (i : Nat)
    (h : ∀ mw ∈ l, mw.before.outcome = Outcome.ok) :
    (runBefores s l i).outcome = Outcome.ok := by
  induction l generalizing s i with
  | nil => simp [runBefores]
  | cons mw rest ih =>
    have hoc : mw.before.outcome = Outcome.ok := h mw (List.mem_cons_self mw rest)
    simp only [runBefores, hoc]
    exact ih _ _ fun m hm => h m (List.mem_cons_of_mem mw hm)

/-- When no configured `before` stage calls `do_finish`, the BEFORE loop
emits no real-finish event. -/
theorem runBefores_no_doFinish (l : List MWBeh) (s : HState) (i : Nat)
    (h : ∀ mw ∈ l, HOp.hdoFinish ∉ mw.before.ops) :
    Event.doFinishE ∉ (runBefores s l i).trace := by
  induction l generalizing s i with
  | nil => simp [runBefores]
  | cons mw rest ih =>
    have hops := runOps_no_doFinish s mw.before.ops (h mw (List.mem_cons_self mw rest))
    have hrest := fun (s' : HState) (i' : Nat) =>
      ih s' i' fun m hm => h m (List.mem_cons_of_mem mw hm)
    cases hoc : mw.before.outcome <;>
      simp [runBefores, hoc, hops, hrest]

/-- When no stage selected by a cleanup loop calls `do_finish`, the loop
emits no real-finish event. -/
theorem runStageLoop_no_doFinish (ev : Nat → Event) (sel : MWBeh → StageBeh)
    (l : List (Nat × MWBeh)) (s : HState)
    (hev : ∀ j, ev j ≠ Event.doFinishE)
    (h : ∀ p ∈ l, HOp.hdoFinish ∉ (sel p.2).ops) :
    Event.doFinishE ∉ (runStageLoop ev sel s l).trace := by
  induction l generalizing s with
  | nil => simp [runStageLoop]
  | cons p rest ih =>
    obtain ⟨i, mw⟩ := p
    have hops := runOps_no_doFinish s (sel mw).ops (h (i, mw) (List.mem_cons_self _ rest))
    have hrest := fun (s' : HState) =>
      ih s' fun q hq => h q (List.mem_cons_of_mem _ hq)
    cases hoc : (sel mw).outcome <;>
      simp [runStageLoop, hoc, hops, hrest, (hev i).symm, fun h => hev i h]

/-- When no configured `before` stage calls `self.redirect`, the BEFORE
loop leaves the pending redirect directive unchanged. -/
theorem runBefores_redirection (l : List MWBeh) (s : HState) (i : Nat)
    (h : ∀ mw ∈ l, redirTargets mw.before.ops = []) :
    (runBefores s l i).state.redirection = s.redirection := by
  induction l generalizing s i with
  | nil => simp [runBefores]
  | cons mw rest ih =>
    have hops := runOps_redirection_of_no_redirect s mw.before.ops
      (h mw (List.mem_cons_self mw rest))
    cases hoc : mw.before.outcome with
    | ok =>
      simp only [runBefores, hoc]
      exact (ih _ _ fun m hm => h m (List.mem_cons_of_mem mw hm)).trans hops
    | interrupt => simpa [runBefores, hoc] using hops
    | error => simpa [runBefores, hoc] using hops

/-- When no stage selected by a cleanup loop calls `self.redirect`, the
loop leaves the pending redirect directive unchanged. -/
theorem runStageLoop_redirection (ev : Nat → Event) (sel : MWBeh → StageBeh)
    (l : List (Nat × MWBeh)) (s : HState)
    (h : ∀ p ∈ l, redirTargets (sel p.2).ops = []) :
    (runStageLoop ev sel s l).state.redirection = s.redirection := by
  induction l generalizing s with
  | nil => simp [runStageLoop]
  | cons p rest ih =>
    obtain ⟨i, mw⟩ := p
    have hops := runOps_redirection_of_no_redirect s (sel mw).ops
      (h (i, mw) (List.mem_cons_self _ rest))
    cases hoc : (sel mw).outcome with
    | ok =>
      simp only [runStageLoop, hoc]
      exact (ih _ fun q hq => h q (List.mem_cons_of_mem _ hq)).trans hops
    | interrupt => simpa [runStageLoop, hoc] using hops
    | error => simpa [runStageLoop, hoc] using hops

/-- Argument decoding only touches the argument cache. -/
theorem decodeStep_state (cfg : Config) (args : List Nat)
    (kwargs : List (Nat × Nat)) (s : HState) :
    (decodeStep cfg args kwargs s).1.called_once = s.called_once ∧
      (decodeStep cfg args kwargs s).1.redirection = s.redirection ∧
      (decodeStep cfg args kwargs s).1.finished = s.finished := by
  unfold decodeStep
  cases s.cached_args <;> simp

/-- On a cache miss, argument decoding caches exactly the decoded argument
tuple, which it also returns. -/
theorem decodeStep_cache_miss (cfg : Config) (args : List Nat)
    (kwargs : List (Nat × Nat)) (s : HState) (h : s.cached_args = none) :
    (decodeStep cfg args kwargs s).1.cached_args =
        some (args.map cfg.decodeP, kwargs.map fun p => (p.1, cfg.decodeK p.1 p.2)) ∧
      (decodeStep cfg args kwargs s).2.2 =
        (args.map cfg.decodeP, kwargs.map fun p => (p.1, cfg.decodeK p.1 p.2)) := by
  unfold decodeStep
  rw [h]
  simp

/-- On a cache hit, argument decoding returns the cached tuple unchanged,
decodes nothing, and leaves the state alone. -/
theorem decodeStep_cache_hit (cfg : Config) (args : List Nat)
    (kwargs : List (Nat × Nat)) (s : HState) (c : Args)
    (h : s.cached_args = some c) :
    decodeStep cfg args kwargs s = (s, [], c) := by
  unfold decodeStep
  rw [h]

/-! ### Lemmas about the cleanup phase -/

/-- The cleanup phase emits only `after` events, `after_finish` events,
redirect transport calls and real-finish events. -/
theorem cleanup_events (executed : List (Nat × MWBeh)) (s : HState) :
    ∀ e ∈ (cleanup executed s).trace,
      (∃ j, e = Event.afterE j) ∨ (∃ j, e = Event.afterFinishE j) ∨
        (∃ t, e = Event.applyRedirectE t) ∨ e = Event.doFinishE := by
  intro e he
  unfold cleanup at he
  cases herr : (runStageLoop Event.afterE (fun mw => mw.after) s executed).err with
  | some err =>
    simp only [herr] at he
    rcases runStageLoop_events _ _ _ _ e he with h | h
    · exact Or.inl h
    · exact Or.inr (Or.inr (Or.inr h))
  | none =>
    simp only [herr] at he
    rcases List.mem_append.mp he with he | he
    · rcases List.mem_append.mp he with he | he
      · rcases runStageLoop_events _ _ _ _ e he with h | h
        · exact Or.inl h
        · exact Or.inr (Or.inr (Or.inr h))
      · split at he
        · exact Or.inr (Or.inr (Or.inl (tryRedirect_events _ e he)))
        · rcases List.mem_append.mp he with he | he
          · exact Or.inr (Or.inr (Or.inl (tryRedirect_events _ e he)))
          · exact Or.inr (Or.inr (Or.inr (by simpa using he)))
    · rcases runStageLoop_events _ _ _ _ e he with h | h
      · exact Or.inr (Or.inl h)
      · exact Or.inr (Or.inr (Or.inr h))

/-- The cleanup phase never touches the re-entrancy flag or the argument
cache. -/
theorem cleanup_pres (executed : List (Nat × MWBeh)) (s : HState) :
    (cleanup executed s).state.called_once = s.called_once ∧
      (cleanup executed s).state.cached_args = s.cached_args := by
  have key : ∀ fs : HState, fs.called_once = s.called_once →
      fs.cached_args = s.cached_args →
      (runStageLoop Event.afterFinishE (fun mw => mw.after_finish) fs executed).state.called_once
          = s.called_once ∧
        (runStageLoop Event.afterFinishE (fun mw => mw.after_finish) fs executed).state.cached_args
          = s.cached_args := by
    intro fs h1 h2
    exact ⟨(runStageLoop_pres _ _ _ _).1.trans h1, (runStageLoop_pres _ _ _ _).2.trans h2⟩
  have haft := runStageLoop_pres Event.afterE (fun mw => mw.after) executed s
  unfold cleanup
  cases herr : (runStageLoop Event.afterE (fun mw => mw.after) s executed).err with
  | some err =>
    simp only [herr]
    exact haft
  | none =>
    simp only [herr]
    apply key
    · split <;> simp [tryRedirect_state, haft.1]
    · split <;> simp [tryRedirect_state, haft.2]

/-- When every executed middleware's `after` and `after_finish` stages
return normally, the cleanup phase raises nothing. -/
theorem cleanup_err_none (executed : List (Nat × MWBeh)) (s : HState)
    (hok1 : ∀ p ∈ executed, p.2.after.outcome = Outcome.ok)
    (hok2 : ∀ p ∈ executed, p.2.after_finish.outcome = Outcome.ok) :
    (cleanup executed s).err = none := by
  have h1 := runStageLoop_ok Event.afterE (fun mw => mw.after) afterIdx
    (fun j => rfl) rfl executed s hok1
  unfold cleanup
  simp only [h1.1]
  exact (runStageLoop_ok Event.afterFinishE (fun mw => mw.after_finish)
    afterFinishIdx (fun j => rfl) rfl executed _ hok2).1

/-- When every executed middleware's `after` stage returns normally, the
`after` calls of the cleanup phase are exactly the executed-middleware
entries, in the executed list's own (reverse entry) order. -/
theorem cleanup_filter_after (executed : List (Nat × MWBeh)) (s : HState)
    (hok1 : ∀ p ∈ executed, p.2.after.outcome = Outcome.ok) :
    (cleanup executed s).trace.filterMap afterIdx = executed.map Prod.fst := by
  have h1 := runStageLoop_ok Event.afterE (fun mw => mw.after) afterIdx
    (fun j => rfl) rfl executed s hok1
  have h2 : ∀ fs : HState,
      (runStageLoop Event.afterFinishE (fun mw => mw.after_finish) fs
        executed).trace.filterMap afterIdx = [] := by
    intro fs
    refine List.filterMap_eq_nil_iff.mpr ?_
    intro e he
    rcases runStageLoop_events _ _ _ _ e he with ⟨j, rfl⟩ | rfl <;> rfl
  have h3 : ∀ s' : HState, (tryRedirect s').2.filterMap afterIdx = [] := by
    intro s'
    refine List.filterMap_eq_nil_iff.mpr ?_
    intro e he
    obtain ⟨t, rfl⟩ := tryRedirect_events s' e he
    rfl
  unfold cleanup
  simp only [h1.1]
  rw [List.filterMap_append, List.filterMap_append, h1.2, h2]
  split <;> simp [h3, List.filterMap_append, afterIdx]

/-- When every executed middleware's `after` and `after_finish` stages
return normally, the `after_finish` calls of the cleanup phase are exactly
the executed-middleware entries, in the executed list's own (reverse
entry) order. -/
theorem cleanup_filter_afterFinish (executed : List (Nat × MWBeh)) (s : HState)
    (hok1 : ∀ p ∈ executed, p.2.after.outcome = Outcome.ok)
    (hok2 : ∀ p ∈ executed, p.2.after_finish.outcome = Outcome.ok) :
    (cleanup executed s).trace.filterMap afterFinishIdx = executed.map Prod.fst := by
  have h1 := runStageLoop_ok Event.afterE (fun mw => mw.after) afterIdx
    (fun j => rfl) rfl executed s hok1
  have h1f : (runStageLoop Event.afterE (fun mw => mw.after) s
      executed).trace.filterMap afterFinishIdx = [] := by
    refine List.filterMap_eq_nil_iff.mpr ?_
    intro e he
    rcases runStageLoop_events _ _ _ _ e he with ⟨j, rfl⟩ | rfl <;> rfl
  have h2 := fun fs => (runStageLoop_ok Event.afterFinishE
    (fun mw => mw.after_finish) afterFinishIdx (fun j => rfl) rfl executed fs hok2).2
  have h3 : ∀ s' : HState, (tryRedirect s').2.filterMap afterFinishIdx = [] := by
    intro s'
    refine List.filterMap_eq_nil_iff.mpr ?_
    intro e he
    obtain ⟨t, rfl⟩ := tryRedirect_events s' e he
    rfl
  unfold cleanup
  simp only [h1.1]
  rw [List.filterMap_append, List.filterMap_append, h1f, h2]
  split <;> simp [h3, List.filterMap_append, afterFinishIdx]

/-- The trace of the cleanup phase splits into a part free of redirect
transport calls followed by a part free of `after` calls: the deferred
redirect can only happen after every `after` call. -/
theorem cleanup_split (executed : List (Nat × MWBeh)) (s : HState) :
    ∃ X Y, (cleanup executed s).trace = X ++ Y ∧
      (∀ e ∈ X, applyIdx e = none) ∧ (∀ e ∈ Y, afterIdx e = none) := by
  have haft : ∀ e ∈ (runStageLoop Event.afterE (fun mw => mw.after) s
      executed).trace, applyIdx e = none := by
    intro e he
    rcases runStageLoop_events _ _ _ _ e he with ⟨j, rfl⟩ | rfl <;> rfl
  unfold cleanup
  cases herr : (runStageLoop Event.afterE (fun mw => mw.after) s executed).err with
  | some err =>
    simp only [herr]
    exact ⟨_, [], by simp, haft, by simp⟩
  | none =>
    simp only [herr]
    refine ⟨(runStageLoop Event.afterE (fun mw => mw.after) s executed).trace,
      _, by rw [List.append_assoc], haft, ?_⟩
    intro e he
    rcases List.mem_append.mp he with he | he
    · split at he
      · obtain ⟨t, rfl⟩ := tryRedirect_events _ e he
        rfl
      · rcases List.mem_append.mp he with he | he
        · obtain ⟨t, rfl⟩ := tryRedirect_events _ e he
          rfl
        · simp only [List.mem_singleton] at he
          subst he
          rfl
    · rcases runStageLoop_events _ _ _ _ e he with ⟨j, rfl⟩ | rfl <;> rfl

/-! ### Decomposition of a first (non-re-entrant) dispatch -/

/-- On a first call passing VALIDATE whose BEFORE loop completes normally
and whose action does not raise a hard error, `_execute` is the
concatenation VALIDATE / PREPARE / decode / BEFORE / action / cleanup. -/
theorem execute_first_ok_eq (cfg : Config) (args : List Nat)
    (kwargs : List (Nat × Nat)) (s0 : HState)
    (d : HState × List Event × Args) (b : PhaseRes)
    (act : HState × List Event × Outcome) (c : LoopRes)
    (h0 : s0.called_once = false)
    (hval : (validateStep cfg).2 = none)
    (hd : d = decodeStep cfg args kwargs { s0 with called_once := true })
    (hb : b = runBefores d.1 cfg.middleware 0)
    (hbo : b.outcome = Outcome.ok)
    (hact : act = runAction cfg d.2.2 b.state)
    (ha : cfg.actionBeh.outcome ≠ Outcome.error)
    (hc : c = cleanup b.executed act.1) :
    execute cfg args kwargs s0 =
      { state := c.state
        trace := ((validateStep cfg).1 ++ [Event.prepareE]) ++ d.2.1 ++
          (b.trace ++ act.2.1) ++ c.trace
        err := c.err } := by
  subst hd hb hact hc
  cases hao : cfg.actionBeh.outcome with
  | ok => simp [execute, h0, hval, hbo, runAction, hao]
  | interrupt => simp [execute, h0, hval, hbo, runAction, hao]
  | error => exact absurd hao ha

/-- On a first call passing VALIDATE whose BEFORE loop is stopped by an
`InterruptRequest`, `_execute` skips the action and proceeds directly to
the cleanup phase. -/
theorem execute_first_int_eq (cfg : Config) (args : List Nat)
    (kwargs : List (Nat × Nat)) (s0 : HState)
    (d : HState × List Event × Args) (b : PhaseRes) (c : LoopRes)
    (h0 : s0.called_once = false)
    (hval : (validateStep cfg).2 = none)
    (hd : d = decodeStep cfg args kwargs { s0 with called_once := true })
    (hb : b = runBefores d.1 cfg.middleware 0)
    (hbo : b.outcome = Outcome.interrupt)
    (hc : c = cleanup b.executed b.state) :
    execute cfg args kwargs s0 =
      { state := c.state
        trace := ((validateStep cfg).1 ++ [Event.prepareE]) ++ d.2.1 ++
          b.trace ++ c.trace
        err := c.err } := by
  subst hd hb hc
  simp [execute, h0, hval, hbo]

/-- A re-entrant call (the has-run-once flag already set) performs only
the decode-cache lookup and the action; the `except InterruptRequest`
guard still swallows an interrupt. -/
theorem execute_reentrant_eq (cfg : Config) (args : List Nat)
    (kwargs : List (Nat × Nat)) (s0 : HState)
    (d : HState × List Event × Args)
    (h0 : s0.called_once = true)
    (hd : d = decodeStep cfg args kwargs { s0 with called_once := true }) :
    execute cfg args kwargs s0 =
      { state := (runAction cfg d.2.2 d.1).1
        trace := d.2.1 ++ (runAction cfg d.2.2 d.1).2.1
        err := if cfg.actionBeh.outcome = Outcome.error then
            some PyErr.stageError else none } := by
  subst hd
  cases hao : cfg.actionBeh.outcome <;>
    simp [execute, h0, runAction, hao]

/-- A first call failing VALIDATE stops there: the raised client error
escapes with only VALIDATE's own events emitted. -/
theorem execute_validate_fail_eq (cfg : Config) (args : List Nat)
    (kwargs : List (Nat × Nat)) (s0 : HState) (e : PyErr)
    (h0 : s0.called_once = false)
    (hval : (validateStep cfg).2 = some e) :
    execute cfg args kwargs s0 =
      { state := { s0 with called_once := true }
        trace := (validateStep cfg).1
        err := some e } := by
  simp [execute, h0, hval]

/-- A first call whose BEFORE loop raises a hard (non-interrupt) error
aborts before the action and before any cleanup. -/
theorem execute_first_before_error_eq (cfg : Config) (args : List Nat)
    (kwargs : List (Nat × Nat)) (s0 : HState)
    (d : HState × List Event × Args) (b : PhaseRes)
    (h0 : s0.called_once = false)
    (hval : (validateStep cfg).2 = none)
    (hd : d = decodeStep cfg args kwargs { s0 with called_once := true })
    (hb : b = runBefores d.1 cfg.middleware 0)
    (hbo : b.outcome = Outcome.error) :
    execute cfg args kwargs s0 =
      { state := b.state
        trace := ((validateStep cfg).1 ++ [Event.prepareE]) ++ d.2.1 ++ b.trace
        err := some PyErr.stageError } := by
  subst hd hb
  simp [execute, h0, hval, hbo]

/-- A first call whose action raises a hard (non-interrupt) error aborts
before any cleanup. -/
theorem execute_first_action_error_eq (cfg : Config) (args : List Nat)
    (kwargs : List (Nat × Nat)) (s0 : HState)
    (d : HState × List Event × Args) (b : PhaseRes)
    (h0 : s0.called_once = false)
    (hval : (validateStep cfg).2 = none)
    (hd : d = decodeStep cfg args kwargs { s0 with called_once := true })
    (hb : b = runBefores d.1 cfg.middleware 0)
    (hbo : b.outcome = Outcome.ok)
    (ha : cfg.actionBeh.outcome = Outcome.error) :
    execute cfg args kwargs s0 =
      { state := (runAction cfg d.2.2 b.state).1
        trace := ((validateStep cfg).1 ++ [Event.prepareE]) ++ d.2.1 ++
          (b.trace ++ (runAction cfg d.2.2 b.state).2.1)
        err := some PyErr.stageError } := by
  subst hd hb
  simp [execute, h0, hval, hbo, runAction, ha]

/-! ### Classifier-vanishing helpers for the early pipeline segments -/

/-- A classifier that ignores the XSRF check extracts nothing from
VALIDATE's events. -/
theorem validate_filterMap_nil {α : Type} (cfg : Config) (f : Event → Option α)
    (hf : f Event.checkXsrfE = none) : (validateStep cfg).1.filterMap f = [] := by
  refine List.filterMap_eq_nil_iff.mpr ?_
  intro e he
  rw [validateStep_events cfg e he]
  exact hf

/-- A classifier that ignores decode calls extracts nothing from the
decode step's events. -/
theorem decode_filterMap_nil {α : Type} (cfg : Config) (args : List Nat)
    (kwargs : List (Nat × Nat)) (s : HState) (f : Event → Option α)
    (h1 : ∀ r, f (Event.decodePosE r) = none)
    (h2 : ∀ n r, f (Event.decodeKwE n r) = none) :
    (decodeStep cfg args kwargs s).2.1.filterMap f = [] := by
  refine List.filterMap_eq_nil_iff.mpr ?_
  intro e he
  rcases decodeStep_events cfg args kwargs s e he with ⟨r, rfl⟩ | ⟨n, r, rfl⟩
  · exact h1 r
  · exact h2 n r

/-- A classifier that ignores `before` entries and real-finish events
extracts nothing from the BEFORE loop's events. -/
theorem runBefores_filterMap_nil {α : Type} (l : List MWBeh) (s : HState)
    (i : Nat) (f : Event → Option α)
    (h1 : ∀ j, f (Event.beforeE j) = none) (h2 : f Event.doFinishE = none) :
    (runBefores s l i).trace.filterMap f = [] := by
  refine List.filterMap_eq_nil_iff.mpr ?_
  intro e he
  rcases runBefores_events l s i e he with ⟨j, rfl⟩ | rfl
  · exact h1 j
  · exact h2

/-- A classifier that ignores the action call and real-finish events
extracts nothing from the action step's events. -/
theorem runAction_filterMap_nil {α : Type} (cfg : Config) (a : Args)
    (s : HState) (f : Event → Option α)
    (h1 : ∀ x, f (Event.actionE x) = none) (h2 : f Event.doFinishE = none) :
    (runAction cfg a s).2.1.filterMap f = [] := by
  simp only [runAction]
  rw [List.filterMap_cons]
  simp [h1, runOps_filterMap f h2]

/-- A classifier that ignores the non-`after`/`after_finish` cleanup
events and both loops extracts nothing from the cleanup phase. -/
theorem cleanup_filterMap_nil {α : Type} (executed : List (Nat × MWBeh))
    (s : HState) (f : Event → Option α)
    (h1 : ∀ j, f (Event.afterE j) = none)
    (h2 : ∀ j, f (Event.afterFinishE j) = none)
    (h3 : ∀ t, f (Event.applyRedirectE t) = none)
    (h4 : f Event.doFinishE = none) :
    (cleanup executed s).trace.filterMap f = [] := by
  refine List.filterMap_eq_nil_iff.mpr ?_
  intro e he
  rcases cleanup_events executed s e he with ⟨j, rfl⟩ | ⟨j, rfl⟩ | ⟨t, rfl⟩ | rfl
  · exact h1 j
  · exact h2 j
  · exact h3 t
  · exact h4

/-- The trace of any dispatch splits into a part free of redirect
transport calls followed by a part free of `after` calls, whatever the
middleware behaviours, outcomes and re-entrancy state. -/
theorem execute_split (cfg : Config) (args : List Nat)
    (kwargs : List (Nat × Nat)) (s0 : HState) :
    ∃ X Y, (execute cfg args kwargs s0).trace = X ++ Y ∧
      (∀ e ∈ X, applyIdx e = none) ∧ (∀ e ∈ Y, afterIdx e = none) := by
  by_cases h0 : s0.called_once
  · have heq := execute_reentrant_eq cfg args kwargs s0 _ h0 rfl
    refine ⟨(execute cfg args kwargs s0).trace, [], by simp, ?_, by simp⟩
    intro e he
    rw [heq] at he
    simp only [List.mem_append] at he
    rcases he with he | he
    · rcases decodeStep_events _ _ _ _ _ he with ⟨r, rfl⟩ | ⟨n, r, rfl⟩ <;> rfl
    · simp only [runAction] at he
      rcases List.mem_cons.mp he with rfl | he
      · rfl
      · rw [runOps_events _ _ _ he]
        rfl
  · have h0' : s0.called_once = false := by simpa using h0
    have hbt : ∀ e ∈ (runBefores
        (decodeStep cfg args kwargs { s0 with called_once := true }).1
        cfg.middleware 0).trace, applyIdx e = none := by
      intro e he
      rcases runBefores_events _ _ _ _ he with ⟨j, rfl⟩ | rfl <;> rfl
    have hpre : ∀ e ∈ (validateStep cfg).1 ++ [Event.prepareE] ++
        (decodeStep cfg args kwargs { s0 with called_once := true }).2.1,
        applyIdx e = none := by
      intro e he
      simp only [List.mem_append] at he
      rcases he with (he | he) | he
      · rw [validateStep_events cfg e he]
        rfl
      · simp only [List.mem_singleton] at he
        subst he
        rfl
      · rcases decodeStep_events _ _ _ _ _ he with ⟨r, rfl⟩ | ⟨n, r, rfl⟩ <;> rfl
    cases hval : (validateStep cfg).2 with
    | some e =>
      have heq := execute_validate_fail_eq cfg args kwargs s0 e h0' hval
      refine ⟨(execute cfg args kwargs s0).trace, [], by simp, ?_, by simp⟩
      intro x hx
      rw [heq] at hx
      rw [validateStep_events cfg x hx]
      rfl
    | none =>
      cases hbo : (runBefores
          (decodeStep cfg args kwargs { s0 with called_once := true }).1
          cfg.middleware 0).outcome with
      | error =>
        have heq := execute_first_before_error_eq cfg args kwargs s0 _ _
          h0' hval rfl rfl hbo
        refine ⟨(execute cfg args kwargs s0).trace, [], by simp, ?_, by simp⟩
        intro e he
        rw [heq] at he
        simp only [List.mem_append] at he
        rcases he with ((he | he) | he) | he
        · rw [validateStep_events cfg e he]
          rfl
        · simp only [List.mem_singleton] at he
          subst he
          rfl
        · rcases decodeStep_events _ _ _ _ _ he with ⟨r, rfl⟩ | ⟨n, r, rfl⟩ <;> rfl
        · exact hbt e he
      | interrupt =>
        obtain ⟨Xc, Yc, hc, hXc, hYc⟩ := cleanup_split
          (runBefores (decodeStep cfg args kwargs { s0 with called_once := true }).1
            cfg.middleware 0).executed
          (runBefores (decodeStep cfg args kwargs { s0 with called_once := true }).1
            cfg.middleware 0).state
        have heq := execute_first_int_eq cfg args kwargs s0 _ _ _
          h0' hval rfl rfl hbo rfl
        refine ⟨((validateStep cfg).1 ++ [Event.prepareE] ++
            (decodeStep cfg args kwargs { s0 with called_once := true }).2.1 ++
            (runBefores (decodeStep cfg args kwargs { s0 with called_once := true }).1
              cfg.middleware 0).trace) ++ Xc, Yc, ?_, ?_, hYc⟩
        · rw [heq]
          simp only []
          rw [hc, ← List.append_assoc]
        · intro e he
          rcases List.mem_append.mp he with he | he
          · simp only [List.mem_append] at he
            rcases he with ((he | he) | he) | he
            · rw [validateStep_events cfg e he]
              rfl
            · simp only [List.mem_singleton] at he
              subst he
              rfl
            · rcases decodeStep_events _ _ _ _ _ he with ⟨r, rfl⟩ | ⟨n, r, rfl⟩ <;> rfl
            · exact hbt e he
          · exact hXc e he
      | ok =>
        by_cases hae : cfg.actionBeh.outcome = Outcome.error
        · have heq := execute_first_action_error_eq cfg args kwargs s0 _ _
            h0' hval rfl rfl hbo hae
          refine ⟨(execute cfg args kwargs s0).trace, [], by simp, ?_, by simp⟩
          intro e he
          rw [heq] at he
          simp only [List.mem_append] at he
          rcases he with ((he | he) | he) | he | he
          · rw [validateStep_events cfg e he]
            rfl
          · simp only [List.mem_singleton] at he
            subst he
            rfl
          · rcases decodeStep_events _ _ _ _ _ he with ⟨r, rfl⟩ | ⟨n, r, rfl⟩ <;> rfl
          · exact hbt e he
          · simp only [runAction] at he
            rcases List.mem_cons.mp he with rfl | he
            · rfl
            · rw [runOps_events _ _ _ he]
              rfl
        · obtain ⟨Xc, Yc, hc, hXc, hYc⟩ := cleanup_split
            (runBefores (decodeStep cfg args kwargs { s0 with called_once := true }).1
              cfg.middleware 0).executed
            (runAction cfg
              (decodeStep cfg args kwargs { s0 with called_once := true }).2.2
              (runBefores (decodeStep cfg args kwargs { s0 with called_once := true }).1
                cfg.middleware 0).state).1
          have heq := execute_first_ok_eq cfg args kwargs s0 _ _ _ _
            h0' hval rfl rfl hbo rfl hae rfl
          refine ⟨((validateStep cfg).1 ++ [Event.prepareE] ++
              (decodeStep cfg args kwargs { s0 with called_once := true }).2.1 ++
              ((runBefores (decodeStep cfg args kwargs { s0 with called_once := true }).1
                  cfg.middleware 0).trace ++
                (runAction cfg
                  (decodeStep cfg args kwargs { s0 with called_once := true }).2.2
                  (runBefores (decodeStep cfg args kwargs { s0 with called_once := true }).1
                    cfg.middleware 0).state).2.1)) ++ Xc, Yc, ?_, ?_, hYc⟩
          · rw [heq]
            simp only []
            rw [hc, ← List.append_assoc]
          · intro e he
            rcases List.mem_append.mp he with he | he
            · simp only [List.mem_append] at he
              rcases he with ((he | he) | he) | he | he
              · rw [validateStep_events cfg e he]
                rfl
              · simp only [List.mem_singleton] at he
                subst he
                rfl
              · rcases decodeStep_events _ _ _ _ _ he with ⟨r, rfl⟩ | ⟨n, r, rfl⟩ <;> rfl
              · exact hbt e he
              · simp only [runAction] at he
                rcases List.mem_cons.mp he with rfl | he
                · rfl
                · rw [runOps_events _ _ _ he]
                  rfl
            · exact hXc e he

/-! ### Claim theorems about the pipeline executor -/

/-- C2.  On a first call passing VALIDATE, with no hard error raised by
any `before` stage or the action, and with normally returning `after` and
`after_finish` stages, the `after` calls of the dispatch are exactly the
entered middleware in exact reverse entry order, and so are the
`after_finish` calls: when BEFORE is stopped at entry k of N, exactly
entries 0..k-1 (in reverse) receive `after` and `after_finish`. -/
theorem afters_exact_reverse_entered (cfg : Config) (args : List Nat)
    (kwargs : List (Nat × Nat)) (s0 : HState)
    (h0 : s0.called_once = false)
    (hval : (validateStep cfg).2 = none)
    (hbe : ∀ mw ∈ cfg.middleware, mw.before.outcome ≠ Outcome.error)
    (hae : cfg.actionBeh.outcome ≠ Outcome.error)
    (hok1 : ∀ mw ∈ cfg.middleware, mw.after.outcome = Outcome.ok)
    (hok2 : ∀ mw ∈ cfg.middleware, mw.after_finish.outcome = Outcome.ok) :
    (execute cfg args kwargs s0).trace.filterMap afterIdx =
        (List.range (enteredCount cfg.middleware)).reverse ∧
      (execute cfg args kwargs s0).trace.filterMap afterFinishIdx =
        (List.range (enteredCount cfg.middleware)).reverse := by
  have hexmem : ∀ p ∈ (runBefores
      (decodeStep cfg args kwargs { s0 with called_once := true }).1
      cfg.middleware 0).executed, p.2 ∈ cfg.middleware :=
    runBefores_executed_mem cfg.middleware _ 0
  have hexok1 : ∀ p ∈ (runBefores
      (decodeStep cfg args kwargs { s0 with called_once := true }).1
      cfg.middleware 0).executed, p.2.after.outcome = Outcome.ok :=
    fun p hp => hok1 p.2 (hexmem p hp)
  have hexok2 : ∀ p ∈ (runBefores
      (decodeStep cfg args kwargs { s0 with called_once := true }).1
      cfg.middleware 0).executed, p.2.after_finish.outcome = Outcome.ok :=
    fun p hp => hok2 p.2 (hexmem p hp)
  have hmap : (runBefores
      (decodeStep cfg args kwargs { s0 with called_once := true }).1
      cfg.middleware 0).executed.map Prod.fst =
      (List.range (enteredCount cfg.middleware)).reverse := by
    rw [runBefores_executed_map, List.range_eq_range']
  cases hbo : (runBefores
      (decodeStep cfg args kwargs { s0 with called_once := true }).1
      cfg.middleware 0).outcome with
  | error => exact absurd hbo (runBefores_outcome cfg.middleware _ 0 hbe)
  | ok =>
    have heq := execute_first_ok_eq cfg args kwargs s0 _ _ _ _ h0 hval rfl rfl
      hbo rfl hae rfl
    rw [heq]
    constructor
    · simp only [List.filterMap_append,
        validate_filterMap_nil cfg afterIdx rfl,
        decode_filterMap_nil cfg args kwargs _ afterIdx (fun r => rfl) (fun n r => rfl),
        runBefores_filterMap_nil cfg.middleware _ 0 afterIdx (fun j => rfl) rfl,
        runAction_filterMap_nil cfg _ _ afterIdx (fun x => rfl) rfl,
        cleanup_filter_after _ _ hexok1, hmap]
      simp [afterIdx]
    · simp only [List.filterMap_append,
        validate_filterMap_nil cfg afterFinishIdx rfl,
        decode_filterMap_nil cfg args kwargs _ afterFinishIdx (fun r => rfl) (fun n r => rfl),
        runBefores_filterMap_nil cfg.middleware _ 0 afterFinishIdx (fun j => rfl) rfl,
        runAction_filterMap_nil cfg _ _ afterFinishIdx (fun x => rfl) rfl,
        cleanup_filter_afterFinish _ _ hexok1 hexok2, hmap]
      simp [afterFinishIdx]
  | interrupt =>
    have heq := execute_first_int_eq cfg args kwargs s0 _ _ _ h0 hval rfl rfl
      hbo rfl
    rw [heq]
    constructor
    · simp only [List.filterMap_append,
        validate_filterMap_nil cfg afterIdx rfl,
        decode_filterMap_nil cfg args kwargs _ afterIdx (fun r => rfl) (fun n r => rfl),
        runBefores_filterMap_nil cfg.middleware _ 0 afterIdx (fun j => rfl) rfl,
        cleanup_filter_after _ _ hexok1, hmap]
      simp [afterIdx]
    · simp only [List.filterMap_append,
        validate_filterMap_nil cfg afterFinishIdx rfl,
        decode_filterMap_nil cfg args kwargs _ afterFinishIdx (fun r => rfl) (fun n r => rfl),
        runBefores_filterMap_nil cfg.middleware _ 0 afterFinishIdx (fun j => rfl) rfl,
        cleanup_filter_afterFinish _ _ hexok1 hexok2, hmap]
      simp [afterFinishIdx]

/-- C2, witness: three middleware whose second `before` interrupts; the
two entered middleware get `after` and `after_finish`, each in reverse
entry order. -/
theorem afters_exact_reverse_entered_witness :
    (execute (mkConfig [noopMW,
        { noopMW with before := { ops := [], outcome := Outcome.interrupt } },
        noopMW] noopStage) [4] [(5, 6)] initHState).trace.filterMap afterIdx =
        (List.range (enteredCount (mkConfig [noopMW,
          { noopMW with before := { ops := [], outcome := Outcome.interrupt } },
          noopMW] noopStage).middleware)).reverse ∧
      (execute (mkConfig [noopMW,
        { noopMW with before := { ops := [], outcome := Outcome.interrupt } },
        noopMW] noopStage) [4] [(5, 6)] initHState).trace.filterMap afterFinishIdx =
        (List.range (enteredCount (mkConfig [noopMW,
          { noopMW with before := { ops := [], outcome := Outcome.interrupt } },
          noopMW] noopStage).middleware)).reverse :=
  afters_exact_reverse_entered
    (mkConfig [noopMW,
      { noopMW with before := { ops := [], outcome := Outcome.interrupt } },
      noopMW] noopStage) [4] [(5, 6)] initHState rfl rfl
    (by decide) (by decide) (by decide) (by decide)

/-- C7.  On a first (non-re-entrant) call whose request method is not
among the supported methods, `_execute` raises `HTTPError(405)` and
nothing else happens: no `prepare`, no `before` stage, no action (the
trace is empty). -/
theorem unsupported_method_405 (cfg : Config) (args : List Nat)
    (kwargs : List (Nat × Nat)) (s0 : HState)
    (h0 : s0.called_once = false) (hm : cfg.methodSupported = false) :
    (execute cfg args kwargs s0).err = some (PyErr.httpError 405) ∧
      (execute cfg args kwargs s0).trace = [] := by
  simp [execute, h0, validateStep, hm]

/-- C7, witness: a concrete unsupported-method dispatch yields the 405
client error with an empty trace. -/
theorem unsupported_method_405_witness :
    (execute { mkConfig [noopMW] noopStage with methodSupported := false }
        [1] [(2, 3)] initHState).err = some (PyErr.httpError 405) ∧
      (execute { mkConfig [noopMW] noopStage with methodSupported := false }
        [1] [(2, 3)] initHState).trace = [] :=
  unsupported_method_405 _ [1] [(2, 3)] initHState rfl rfl

/-- C9.  A re-entrant invocation (the has-run-once flag already set) runs
no `after` stage, performs no redirect transport call, runs no
`after_finish` stage, and — unless the action itself calls `do_finish` —
performs no response finalization: only decoding (on a cache miss) and the
action itself appear in the trace. -/
theorem reentrant_frame (cfg : Config) (args : List Nat)
    (kwargs : List (Nat × Nat)) (s0 : HState) (h0 : s0.called_once = true) :
    (∀ e ∈ (execute cfg args kwargs s0).trace,
        afterIdx e = none ∧ afterFinishIdx e = none ∧ applyIdx e = none) ∧
      (HOp.hdoFinish ∉ cfg.actionBeh.ops →
        Event.doFinishE ∉ (execute cfg args kwargs s0).trace) := by
  have htr : (execute cfg args kwargs s0).trace =
      (decodeStep cfg args kwargs { s0 with called_once := true }).2.1 ++
        (Event.actionE (decodeStep cfg args kwargs { s0 with called_once := true }).2.2 ::
          (runOps (decodeStep cfg args kwargs { s0 with called_once := true }).1
            cfg.actionBeh.ops).2) := by
    cases hact : cfg.actionBeh.outcome <;>
      simp [execute, h0, runAction, hact]
  constructor
  · intro e he
    rw [htr] at he
    rcases List.mem_append.mp he with h | h
    · rcases decodeStep_events cfg args kwargs _ e h with ⟨r, rfl⟩ | ⟨n, r, rfl⟩ <;>
        simp [afterIdx, afterFinishIdx, applyIdx]
    · rcases List.mem_cons.mp h with rfl | h
      · simp [afterIdx, afterFinishIdx, applyIdx]
      · rw [runOps_events _ _ e h]
        simp [afterIdx, afterFinishIdx, applyIdx]
  · intro hop he
    rw [htr] at he
    rcases List.mem_append.mp he with h | h
    · rcases decodeStep_events cfg args kwargs _ _ h with ⟨r, hr⟩ | ⟨n, r, hr⟩ <;>
        simp at hr
    · rcases List.mem_cons.mp h with hr | h
      · simp at hr
      · rw [runOps_no_doFinish _ _ hop] at h
        simp at h

/-- C9, witness: a re-entrant call of a dispatch whose action redirects
produces only the action event. -/
theorem reentrant_frame_witness :
    (∀ e ∈ (execute (mkConfig [noopMW] { ops := [HOp.hredirect 7], outcome := Outcome.ok })
        [1] [] { initHState with called_once := true }).trace,
        afterIdx e = none ∧ afterFinishIdx e = none ∧ applyIdx e = none) ∧
      Event.doFinishE ∉ (execute (mkConfig [noopMW] { ops := [HOp.hredirect 7], outcome := Outcome.ok })
          [1] [] { initHState with called_once := true }).trace :=
  ⟨(reentrant_frame (mkConfig [noopMW] { ops := [HOp.hredirect 7], outcome := Outcome.ok })
      [1] [] { initHState with called_once := true } rfl).1,
    (reentrant_frame (mkConfig [noopMW] { ops := [HOp.hredirect 7], outcome := Outcome.ok })
      [1] [] { initHState with called_once := true } rfl).2 (by decide)⟩

/-- Every `before`-entry event of the BEFORE loop carries the index of one
of the entered middleware. -/
theorem runBefores_beforeE_mem (l : List MWBeh) (s : HState) (i j : Nat)
    (h : Event.beforeE j ∈ (runBefores s l i).trace) :
    j ∈ List.range' i (enteredCount l) := by
  induction l generalizing s i with
  | nil => simp [runBefores] at h
  | cons mw rest ih =>
    cases hoc : mw.before.outcome with
    | ok =>
      simp only [runBefores, hoc] at h
      have hcount : enteredCount (mw :: rest) = enteredCount rest + 1 := by
        simp [enteredCount, hoc]
      have hrange : List.range' i (enteredCount rest + 1) =
          i :: List.range' (i + 1) (enteredCount rest) := rfl
      rw [hcount, hrange]
      rcases List.mem_append.mp h with h | h
      · rcases List.mem_cons.mp h with h | h
        · have : j = i := by
            injection h
          exact this ▸ List.mem_cons_self i _
        · exact absurd (runOps_events _ _ _ h) (by simp)
      · exact List.mem_cons_of_mem i (ih _ _ h)
    | interrupt =>
      simp only [runBefores, hoc] at h
      have hcount : enteredCount (mw :: rest) = 1 := by
        simp [enteredCount, hoc]
      rw [hcount, List.range'_one]
      rcases List.mem_cons.mp h with h | h
      · have : j = i := by injection h
        simp [this]
      · exact absurd (runOps_events _ _ _ h) (by simp)
    | error =>
      simp only [runBefores, hoc] at h
      have hcount : enteredCount (mw :: rest) = 1 := by
        simp [enteredCount, hoc]
      rw [hcount, List.range'_one]
      rcases List.mem_cons.mp h with h | h
      · have : j = i := by injection h
        simp [this]
      · exact absurd (runOps_events _ _ _ h) (by simp)

/-- C4.  When the second of three middleware raises the Interrupt Signal
in its `before` stage (the first returning normally), the first and second
middleware receive `after` and `after_finish` (in reverse entry order),
the third middleware's stages never run, the action is never invoked, and
the signal is consumed: no exception escapes the dispatch. -/
theorem interrupt_in_before_two_of_three (cfg : Config) (args : List Nat)
    (kwargs : List (Nat × Nat)) (s0 : HState) (m0 m1 m2 : MWBeh)
    (hmw : cfg.middleware = [m0, m1, m2])
    (h0 : s0.called_once = false)
    (hval : (validateStep cfg).2 = none)
    (hb0 : m0.before.outcome = Outcome.ok)
    (hb1 : m1.before.outcome = Outcome.interrupt)
    (ha0 : m0.after.outcome = Outcome.ok)
    (ha1 : m1.after.outcome = Outcome.ok)
    (hf0 : m0.after_finish.outcome = Outcome.ok)
    (hf1 : m1.after_finish.outcome = Outcome.ok) :
    (execute cfg args kwargs s0).trace.filterMap afterIdx = [1, 0] ∧
      (execute cfg args kwargs s0).trace.filterMap afterFinishIdx = [1, 0] ∧
      (∀ a : Args, Event.actionE a ∉ (execute cfg args kwargs s0).trace) ∧
      Event.beforeE 2 ∉ (execute cfg args kwargs s0).trace ∧
      (execute cfg args kwargs s0).err = none := by
  have hbo : (runBefores
      (decodeStep cfg args kwargs { s0 with called_once := true }).1
      cfg.middleware 0).outcome = Outcome.interrupt := by
    rw [hmw]
    simp [runBefores, hb0, hb1]
  have hex : (runBefores
      (decodeStep cfg args kwargs { s0 with called_once := true }).1
      cfg.middleware 0).executed = [(1, m1), (0, m0)] := by
    rw [hmw]
    simp [runBefores, hb0, hb1]
  have hexok1 : ∀ p ∈ [((1 : Nat), m1), ((0 : Nat), m0)],
      p.2.after.outcome = Outcome.ok := by
    intro p hp
    rcases List.mem_cons.mp hp with rfl | hp
    · exact ha1
    · rcases List.mem_singleton.mp hp with rfl
      exact ha0
  have hexok2 : ∀ p ∈ [((1 : Nat), m1), ((0 : Nat), m0)],
      p.2.after_finish.outcome = Outcome.ok := by
    intro p hp
    rcases List.mem_cons.mp hp with rfl | hp
    · exact hf1
    · rcases List.mem_singleton.mp hp with rfl
      exact hf0
  have heq := execute_first_int_eq cfg args kwargs s0 _ _ _ h0 hval rfl rfl hbo rfl
  rw [heq]
  refine ⟨?_, ?_, ?_, ?_, ?_⟩
  · simp only [List.filterMap_append,
      validate_filterMap_nil cfg afterIdx rfl,
      decode_filterMap_nil cfg args kwargs _ afterIdx (fun r => rfl) (fun n r => rfl),
      runBefores_filterMap_nil cfg.middleware _ 0 afterIdx (fun j => rfl) rfl,
      hex, cleanup_filter_after _ _ hexok1]
    simp [afterIdx]
  · simp only [List.filterMap_append,
      validate_filterMap_nil cfg afterFinishIdx rfl,
      decode_filterMap_nil cfg args kwargs _ afterFinishIdx (fun r => rfl) (fun n r => rfl),
      runBefores_filterMap_nil cfg.middleware _ 0 afterFinishIdx (fun j => rfl) rfl,
      hex, cleanup_filter_afterFinish _ _ hexok1 hexok2]
    simp [afterFinishIdx]
  · intro a ha
    simp only [List.mem_append] at ha
    rcases ha with (((ha | ha) | ha) | ha) | ha
    · exact absurd (validateStep_events cfg _ ha) (by simp)
    · simp at ha
    · rcases decodeStep_events cfg args kwargs _ _ ha with ⟨r, hr⟩ | ⟨n, r, hr⟩ <;>
        simp at hr
    · rcases runBefores_events cfg.middleware _ 0 _ ha with ⟨j, hj⟩ | hj <;>
        simp at hj
    · rcases cleanup_events _ _ _ ha with ⟨j, hj⟩ | ⟨j, hj⟩ | ⟨t, hj⟩ | hj <;>
        simp at hj
  · intro ha
    simp only [List.mem_append] at ha
    rcases ha with (((ha | ha) | ha) | ha) | ha
    · exact absurd (validateStep_events cfg _ ha) (by simp)
    · simp at ha
    · rcases decodeStep_events cfg args kwargs _ _ ha with ⟨r, hr⟩ | ⟨n, r, hr⟩ <;>
        simp at hr
    · have := runBefores_beforeE_mem cfg.middleware _ 0 2 ha
      rw [hmw] at this
      simp [enteredCount, hb0, hb1, List.range'] at this
    · rcases cleanup_events _ _ _ ha with ⟨j, hj⟩ | ⟨j, hj⟩ | ⟨t, hj⟩ | hj <;>
        simp at hj
  · rw [hex]
    exact cleanup_err_none _ _ hexok1 hexok2

/-- C4, witness: the concrete three-middleware dispatch with the second
`before` interrupting. -/
theorem interrupt_in_before_two_of_three_witness :
    (execute (mkConfig [noopMW,
        { noopMW with before := { ops := [], outcome := Outcome.interrupt } },
        noopMW] noopStage) [9] [] initHState).trace.filterMap afterIdx = [1, 0] ∧
      (execute (mkConfig [noopMW,
        { noopMW with before := { ops := [], outcome := Outcome.interrupt } },
        noopMW] noopStage) [9] [] initHState).trace.filterMap afterFinishIdx = [1, 0] ∧
      (∀ a : Args, Event.actionE a ∉ (execute (mkConfig [noopMW,
        { noopMW with before := { ops := [], outcome := Outcome.interrupt } },
        noopMW] noopStage) [9] [] initHState).trace) ∧
      Event.beforeE 2 ∉ (execute (mkConfig [noopMW,
        { noopMW with before := { ops := [], outcome := Outcome.interrupt } },
        noopMW] noopStage) [9] [] initHState).trace ∧
      (execute (mkConfig [noopMW,
        { noopMW with before := { ops := [], outcome := Outcome.interrupt } },
        noopMW] noopStage) [9] [] initHState).err = none :=
  interrupt_in_before_two_of_three (mkConfig [noopMW,
      { noopMW with before := { ops := [], outcome := Outcome.interrupt } },
      noopMW] noopStage) [9] [] initHState noopMW
    { noopMW with before := { ops := [], outcome := Outcome.interrupt } } noopMW
    rfl rfl rfl rfl rfl rfl rfl rfl rfl

/-- C5.  Calling `self.redirect` performs no transport call at that
moment (it only stores the directive); in the trace of any dispatch, every
redirect transport call strictly follows every `after` call: the actual
redirect is performed only after all `after` stages have completed. -/
theorem redirect_only_after_all_afters (cfg : Config) (args : List Nat)
    (kwargs : List (Nat × Nat)) (s0 : HState) (i j a t : Nat)
    (hi : (execute cfg args kwargs s0).trace[i]? = some (Event.afterE a))
    (hj : (execute cfg args kwargs s0).trace[j]? = some (Event.applyRedirectE t)) :
    i < j := by
  obtain ⟨X, Y, htr, hX, hY⟩ := execute_split cfg args kwargs s0
  rw [htr] at hi hj
  by_cases hiX : i < X.length
  · by_cases hjX : j < X.length
    · rw [List.getElem?_append_left hjX] at hj
      have := hX _ (List.getElem?_mem hj)
      simp [applyIdx] at this
    · omega
  · push_neg at hiX
    rw [List.getElem?_append_right hiX] at hi
    have := hY _ (List.getElem?_mem hi)
    simp [afterIdx] at this

/-- C5, witness: a dispatch whose action requests a redirect has its
`after` call at position 4 and the transport call at position 5 of the
trace, in that order. -/
theorem redirect_only_after_all_afters_witness :
    (execute (mkConfig [noopMW] { ops := [HOp.hredirect 5], outcome := Outcome.ok })
        [1] [] initHState).trace[4]? = some (Event.afterE 0) ∧
      (execute (mkConfig [noopMW] { ops := [HOp.hredirect 5], outcome := Outcome.ok })
        [1] [] initHState).trace[5]? = some (Event.applyRedirectE 5) ∧
      (4 : Nat) < 5 :=
  ⟨by decide, by decide,
    redirect_only_after_all_afters
      (mkConfig [noopMW] { ops := [HOp.hredirect 5], outcome := Outcome.ok })
      [1] [] initHState 4 5 0 5 (by decide) (by decide)⟩

/-- C6.  After a full first dispatch, a re-entrant invocation skips
validation, preparation, decoding and all `before` stages (its trace holds
nothing but the action call and the action's own finish operations), both
invocations hand the action the identical decoded argument tuple (decoded
exactly once and cached), and `prepare` runs exactly once across the two
invocations. -/
theorem reentrant_reuses_cached_args (cfg : Config) (args : List Nat)
    (kwargs : List (Nat × Nat))
    (hval : (validateStep cfg).2 = none)
    (hbok : ∀ mw ∈ cfg.middleware, mw.before.outcome = Outcome.ok)
    (hae : cfg.actionBeh.outcome ≠ Outcome.error) :
    (∀ e ∈ (execute cfg args kwargs (execute cfg args kwargs initHState).state).trace,
        e = Event.actionE (args.map cfg.decodeP,
          kwargs.map fun p => (p.1, cfg.decodeK p.1 p.2)) ∨ e = Event.doFinishE) ∧
      (execute cfg args kwargs initHState).trace.filterMap actionArgs =
        [(args.map cfg.decodeP, kwargs.map fun p => (p.1, cfg.decodeK p.1 p.2))] ∧
      (execute cfg args kwargs (execute cfg args kwargs
        initHState).state).trace.filterMap actionArgs =
        [(args.map cfg.decodeP, kwargs.map fun p => (p.1, cfg.decodeK p.1 p.2))] ∧
      (execute cfg args kwargs initHState).trace.count Event.prepareE = 1 ∧
      Event.prepareE ∉ (execute cfg args kwargs
        (execute cfg args kwargs initHState).state).trace := by
  have hbo : (runBefores
      (decodeStep cfg args kwargs { initHState with called_once := true }).1
      cfg.middleware 0).outcome = Outcome.ok :=
    runBefores_outcome_ok cfg.middleware _ 0 hbok
  have hdec := decodeStep_cache_miss cfg args kwargs
    { initHState with called_once := true } rfl
  have heq1 := execute_first_ok_eq cfg args kwargs initHState _ _ _ _
    rfl hval rfl rfl hbo rfl hae rfl
  have hact_filter : ∀ (a : Args) (s : HState),
      (runAction cfg a s).2.1.filterMap actionArgs = [a] := by
    intro a s
    simp only [runAction]
    rw [List.filterMap_cons]
    simp [actionArgs, runOps_filterMap actionArgs rfl]
  have hst1 : (execute cfg args kwargs initHState).state.called_once = true := by
    rw [heq1]
    simp only []
    rw [(cleanup_pres _ _).1]
    simp only [runAction]
    rw [(runOps_pres _ _).1, (runBefores_pres _ _ _).1, (decodeStep_state _ _ _ _).1]
  have hst2 : (execute cfg args kwargs initHState).state.cached_args =
      some (args.map cfg.decodeP, kwargs.map fun p => (p.1, cfg.decodeK p.1 p.2)) := by
    rw [heq1]
    simp only []
    rw [(cleanup_pres _ _).2]
    simp only [runAction]
    rw [(runOps_pres _ _).2, (runBefores_pres _ _ _).2, hdec.1]
  have heq2 := execute_reentrant_eq cfg args kwargs
    (execute cfg args kwargs initHState).state _ hst1 rfl
  have hhit : decodeStep cfg args kwargs
      { (execute cfg args kwargs initHState).state with called_once := true } =
      ({ (execute cfg args kwargs initHState).state with called_once := true }, [],
        (args.map cfg.decodeP, kwargs.map fun p => (p.1, cfg.decodeK p.1 p.2))) :=
    decodeStep_cache_hit _ _ _ _ _ (by simpa using hst2)
  have hr2 : ∀ e ∈ (execute cfg args kwargs
      (execute cfg args kwargs initHState).state).trace,
      e = Event.actionE (args.map cfg.decodeP,
        kwargs.map fun p => (p.1, cfg.decodeK p.1 p.2)) ∨ e = Event.doFinishE := by
    intro e he
    rw [heq2] at he
    simp only [hhit] at he
    simp only [List.nil_append, runAction] at he
    rcases List.mem_cons.mp he with rfl | he
    · exact Or.inl rfl
    · exact Or.inr (runOps_events _ _ _ he)
  refine ⟨hr2, ?_, ?_, ?_, ?_⟩
  · rw [heq1]
    simp only [List.filterMap_append,
      validate_filterMap_nil cfg actionArgs rfl,
      decode_filterMap_nil cfg args kwargs _ actionArgs (fun r => rfl) (fun n r => rfl),
      runBefores_filterMap_nil cfg.middleware _ 0 actionArgs (fun j => rfl) rfl,
      cleanup_filterMap_nil _ _ actionArgs (fun j => rfl) (fun j => rfl)
        (fun t => rfl) rfl,
      hact_filter, hdec.2]
    simp [actionArgs]
  · rw [heq2]
    simp only [hhit]
    simp only [List.nil_append, List.filterMap_append]
    rw [hact_filter]
  · rw [heq1]
    simp only [List.count_append]
    have hv : (validateStep cfg).1.count Event.prepareE = 0 := by
      rw [List.count_eq_zero]
      intro hmem
      have := validateStep_events cfg _ hmem
      simp at this
    have hd : (decodeStep cfg args kwargs
        { initHState with called_once := true }).2.1.count Event.prepareE = 0 := by
      rw [List.count_eq_zero]
      intro hmem
      rcases decodeStep_events _ _ _ _ _ hmem with ⟨r, hr⟩ | ⟨n, r, hr⟩ <;> simp at hr
    have hb : (runBefores
        (decodeStep cfg args kwargs { initHState with called_once := true }).1
        cfg.middleware 0).trace.count Event.prepareE = 0 := by
      rw [List.count_eq_zero]
      intro hmem
      rcases runBefores_events _ _ _ _ hmem with ⟨j, hj⟩ | hj <;> simp at hj
    have hA : ∀ (a : Args) (s : HState),
        (runAction cfg a s).2.1.count Event.prepareE = 0 := by
      intro a s
      rw [List.count_eq_zero]
      intro hmem
      simp only [runAction] at hmem
      rcases List.mem_cons.mp hmem with hj | hj
      · simp at hj
      · have := runOps_events _ _ _ hj
        simp at this
    have hC : (cleanup (runBefores
        (decodeStep cfg args kwargs { initHState with called_once := true }).1
        cfg.middleware 0).executed
        (runAction cfg
          (decodeStep cfg args kwargs { initHState with called_once := true }).2.2
          (runBefores
            (decodeStep cfg args kwargs { initHState with called_once := true }).1
            cfg.middleware 0).state).1).trace.count Event.prepareE = 0 := by
      rw [List.count_eq_zero]
      intro hmem
      rcases cleanup_events _ _ _ hmem with ⟨j, hj⟩ | ⟨j, hj⟩ | ⟨t, hj⟩ | hj <;>
        simp at hj
    rw [hv, hd, hb, hA, hC]
    simp
  · intro hmem
    rcases hr2 _ hmem with h | h <;> simp at h

/-- C6, witness: a concrete dispatch with one middleware and keyword
arguments, re-entered after completing. -/
theorem reentrant_reuses_cached_args_witness :
    (∀ e ∈ (execute (mkConfig [noopMW] noopStage) [1] [(2, 3)]
        (execute (mkConfig [noopMW] noopStage) [1] [(2, 3)] initHState).state).trace,
        e = Event.actionE ([1].map (mkConfig [noopMW] noopStage).decodeP,
          [(2, 3)].map fun p => (p.1, (mkConfig [noopMW] noopStage).decodeK p.1 p.2)) ∨
          e = Event.doFinishE) ∧
      (execute (mkConfig [noopMW] noopStage) [1] [(2, 3)]
        initHState).trace.filterMap actionArgs =
        [([1].map (mkConfig [noopMW] noopStage).decodeP,
          [(2, 3)].map fun p => (p.1, (mkConfig [noopMW] noopStage).decodeK p.1 p.2))] ∧
      (execute (mkConfig [noopMW] noopStage) [1] [(2, 3)]
        (execute (mkConfig [noopMW] noopStage) [1] [(2, 3)]
          initHState).state).trace.filterMap actionArgs =
        [([1].map (mkConfig [noopMW] noopStage).decodeP,
          [(2, 3)].map fun p => (p.1, (mkConfig [noopMW] noopStage).decodeK p.1 p.2))] ∧
      (execute (mkConfig [noopMW] noopStage) [1] [(2, 3)]
        initHState).trace.count Event.prepareE = 1 ∧
      Event.prepareE ∉ (execute (mkConfig [noopMW] noopStage) [1] [(2, 3)]
        (execute (mkConfig [noopMW] noopStage) [1] [(2, 3)] initHState).state).trace :=
  reentrant_reuses_cached_args (mkConfig [noopMW] noopStage) [1] [(2, 3)]
    rfl (by decide) (by decide)

/-- When the response is already finished on entry to the cleanup phase
and no executed stage itself calls `do_finish`, the cleanup phase emits no
real-finish event: the finalize step is skipped. -/
theorem cleanup_no_doFinish_when_finished (executed : List (Nat × MWBeh))
    (s : HState) (hfin : s.finished = true)
    (h1 : ∀ p ∈ executed, HOp.hdoFinish ∉ p.2.after.ops)
    (h2 : ∀ p ∈ executed, HOp.hdoFinish ∉ p.2.after_finish.ops) :
    Event.doFinishE ∉ (cleanup executed s).trace := by
  have haft := runStageLoop_no_doFinish Event.afterE (fun mw => mw.after)
    executed s (fun j => by simp) h1
  intro hmem
  unfold cleanup at hmem
  cases herr : (runStageLoop Event.afterE (fun mw => mw.after) s executed).err with
  | some err =>
    simp only [herr] at hmem
    exact haft hmem
  | none =>
    simp only [herr] at hmem
    have hfin2 : (tryRedirect (runStageLoop Event.afterE (fun mw => mw.after) s
        executed).state).1.finished = true := by
      rw [tryRedirect_state]
      exact runStageLoop_finished_mono _ _ _ _ hfin
    rcases List.mem_append.mp hmem with hmem | hmem
    · rcases List.mem_append.mp hmem with hmem | hmem
      · exact haft hmem
      · rw [if_pos hfin2] at hmem
        obtain ⟨x, hx⟩ := tryRedirect_events _ _ hmem
        simp at hx
    · rw [if_pos hfin2] at hmem
      exact runStageLoop_no_doFinish Event.afterFinishE (fun mw => mw.after_finish)
        executed _ (fun j => by simp) h2 hmem

/-- When a redirect directive is pending on entry to the cleanup phase,
the `after` stages return normally and call no further redirect, the
cleanup phase performs exactly one redirect transport call, to the pending
target. -/
theorem cleanup_filter_apply (executed : List (Nat × MWBeh)) (s : HState)
    (t : Nat) (hok1 : ∀ p ∈ executed, p.2.after.outcome = Outcome.ok)
    (hnr : ∀ p ∈ executed, redirTargets p.2.after.ops = [])
    (hred : s.redirection = some t) :
    (cleanup executed s).trace.filterMap applyIdx = [t] := by
  have h1 := runStageLoop_ok Event.afterE (fun mw => mw.after) afterIdx
    (fun j => rfl) rfl executed s hok1
  have haftnil : (runStageLoop Event.afterE (fun mw => mw.after) s
      executed).trace.filterMap applyIdx = [] := by
    refine List.filterMap_eq_nil_iff.mpr ?_
    intro e he
    rcases runStageLoop_events _ _ _ _ e he with ⟨j, rfl⟩ | rfl <;> rfl
  have hafnil : ∀ fs : HState, (runStageLoop Event.afterFinishE
      (fun mw => mw.after_finish) fs executed).trace.filterMap applyIdx = [] := by
    intro fs
    refine List.filterMap_eq_nil_iff.mpr ?_
    intro e he
    rcases runStageLoop_events _ _ _ _ e he with ⟨j, rfl⟩ | rfl <;> rfl
  have hredaft : (runStageLoop Event.afterE (fun mw => mw.after) s
      executed).state.redirection = some t :=
    (runStageLoop_redirection _ _ _ _ hnr).trans hred
  have htr : tryRedirect (runStageLoop Event.afterE (fun mw => mw.after) s
      executed).state = ((runStageLoop Event.afterE (fun mw => mw.after) s
      executed).state, [Event.applyRedirectE t]) := by
    unfold tryRedirect
    rw [hredaft]
  unfold cleanup
  simp only [h1.1]
  rw [List.filterMap_append, List.filterMap_append, haftnil, hafnil, htr]
  split <;> simp [applyIdx]

/-- C8.  On a dispatch whose action finalizes the response itself (calls
`do_finish`) while no middleware stage does, the cleanup's finalize step
is skipped — the only real-finish events in the trace are the action's own
calls — yet `after_finish` still runs for every entered middleware in
reverse entry order. -/
theorem finalize_skipped_when_already_finished (cfg : Config) (args : List Nat)
    (kwargs : List (Nat × Nat)) (s0 : HState)
    (h0 : s0.called_once = false)
    (hval : (validateStep cfg).2 = none)
    (hbok : ∀ mw ∈ cfg.middleware, mw.before.outcome = Outcome.ok)
    (hae : cfg.actionBeh.outcome ≠ Outcome.error)
    (hok1 : ∀ mw ∈ cfg.middleware, mw.after.outcome = Outcome.ok)
    (hok2 : ∀ mw ∈ cfg.middleware, mw.after_finish.outcome = Outcome.ok)
    (hdf : HOp.hdoFinish ∈ cfg.actionBeh.ops)
    (hnb : ∀ mw ∈ cfg.middleware, HOp.hdoFinish ∉ mw.before.ops ∧
      HOp.hdoFinish ∉ mw.after.ops ∧ HOp.hdoFinish ∉ mw.after_finish.ops) :
    (execute cfg args kwargs s0).trace.count Event.doFinishE =
        cfg.actionBeh.ops.count HOp.hdoFinish ∧
      (execute cfg args kwargs s0).trace.filterMap afterFinishIdx =
        (List.range (enteredCount cfg.middleware)).reverse := by
  have hbo : (runBefores
      (decodeStep cfg args kwargs { s0 with called_once := true }).1
      cfg.middleware 0).outcome = Outcome.ok :=
    runBefores_outcome_ok cfg.middleware _ 0 hbok
  have hexmem : ∀ p ∈ (runBefores
      (decodeStep cfg args kwargs { s0 with called_once := true }).1
      cfg.middleware 0).executed, p.2 ∈ cfg.middleware :=
    runBefores_executed_mem cfg.middleware _ 0
  have hexok1 : ∀ p ∈ (runBefores
      (decodeStep cfg args kwargs { s0 with called_once := true }).1
      cfg.middleware 0).executed, p.2.after.outcome = Outcome.ok :=
    fun p hp => hok1 p.2 (hexmem p hp)
  have hexok2 : ∀ p ∈ (runBefores
      (decodeStep cfg args kwargs { s0 with called_once := true }).1
      cfg.middleware 0).executed, p.2.after_finish.outcome = Outcome.ok :=
    fun p hp => hok2 p.2 (hexmem p hp)
  have heq := execute_first_ok_eq cfg args kwargs s0 _ _ _ _ h0 hval rfl rfl
    hbo rfl hae rfl
  have hfin : (runAction cfg
      (decodeStep cfg args kwargs { s0 with called_once := true }).2.2
      (runBefores (decodeStep cfg args kwargs { s0 with called_once := true }).1
        cfg.middleware 0).state).1.finished = true := by
    simp only [runAction]
    exact runOps_finished_of_mem _ _ hdf
  constructor
  · rw [heq]
    simp only [List.count_append]
    have hv : (validateStep cfg).1.count Event.doFinishE = 0 := by
      rw [List.count_eq_zero]
      intro hmem
      have := validateStep_events cfg _ hmem
      simp at this
    have hd : (decodeStep cfg args kwargs
        { s0 with called_once := true }).2.1.count Event.doFinishE = 0 := by
      rw [List.count_eq_zero]
      intro hmem
      rcases decodeStep_events _ _ _ _ _ hmem with ⟨r, hr⟩ | ⟨n, r, hr⟩ <;> simp at hr
    have hb : (runBefores
        (decodeStep cfg args kwargs { s0 with called_once := true }).1
        cfg.middleware 0).trace.count Event.doFinishE = 0 := by
      rw [List.count_eq_zero]
      exact runBefores_no_doFinish cfg.middleware _ 0 fun mw hm => (hnb mw hm).1
    have hA : (runAction cfg
        (decodeStep cfg args kwargs { s0 with called_once := true }).2.2
        (runBefores (decodeStep cfg args kwargs { s0 with called_once := true }).1
          cfg.middleware 0).state).2.1.count Event.doFinishE =
        cfg.actionBeh.ops.count HOp.hdoFinish := by
      simp only [runAction, List.count_cons]
      rw [runOps_count_doFinish]
      simp
    have hC : (cleanup (runBefores
        (decodeStep cfg args kwargs { s0 with called_once := true }).1
        cfg.middleware 0).executed
        (runAction cfg
          (decodeStep cfg args kwargs { s0 with called_once := true }).2.2
          (runBefores (decodeStep cfg args kwargs { s0 with called_once := true }).1
            cfg.middleware 0).state).1).trace.count Event.doFinishE = 0 := by
      rw [List.count_eq_zero]
      exact cleanup_no_doFinish_when_finished _ _ hfin
        (fun p hp => (hnb p.2 (hexmem p hp)).2.1)
        (fun p hp => (hnb p.2 (hexmem p hp)).2.2)
    rw [hv, hd, hb, hA, hC]
    simp
  · rw [heq]
    simp only [List.filterMap_append,
      validate_filterMap_nil cfg afterFinishIdx rfl,
      decode_filterMap_nil cfg args kwargs _ afterFinishIdx (fun r => rfl) (fun n r => rfl),
      runBefores_filterMap_nil cfg.middleware _ 0 afterFinishIdx (fun j => rfl) rfl,
      runAction_filterMap_nil cfg _ _ afterFinishIdx (fun x => rfl) rfl,
      cleanup_filter_afterFinish _ _ hexok1 hexok2,
      runBefores_executed_map, List.range_eq_range']
    simp [afterFinishIdx]

/-- C8, witness: one middleware, an action that calls `do_finish` once;
the trace holds exactly one real-finish event (the action's own) and the
`after_finish` stage still runs. -/
theorem finalize_skipped_when_already_finished_witness :
    (execute (mkConfig [noopMW] { ops := [HOp.hdoFinish], outcome := Outcome.ok })
        [1] [] initHState).trace.count Event.doFinishE =
        (mkConfig [noopMW]
          { ops := [HOp.hdoFinish], outcome := Outcome.ok }).actionBeh.ops.count
          HOp.hdoFinish ∧
      (execute (mkConfig [noopMW] { ops := [HOp.hdoFinish], outcome := Outcome.ok })
        [1] [] initHState).trace.filterMap afterFinishIdx =
        (List.range (enteredCount (mkConfig [noopMW]
          { ops := [HOp.hdoFinish], outcome := Outcome.ok }).middleware)).reverse :=
  finalize_skipped_when_already_finished
    (mkConfig [noopMW] { ops := [HOp.hdoFinish], outcome := Outcome.ok })
    [1] [] initHState rfl rfl (by decide) (by decide) (by decide) (by decide)
    (by decide) (by decide)

/-- C10.  When `self.redirect` is called several times during the action
(and by no middleware stage), each call overwrites the pending directive:
the deferred redirect step performs exactly one transport call, to the
target of the last call; earlier targets are never sent. -/
theorem last_redirect_wins (cfg : Config) (args : List Nat)
    (kwargs : List (Nat × Nat)) (s0 : HState) (t : Nat)
    (h0 : s0.called_once = false)
    (hval : (validateStep cfg).2 = none)
    (hbok : ∀ mw ∈ cfg.middleware, mw.before.outcome = Outcome.ok)
    (hae : cfg.actionBeh.outcome ≠ Outcome.error)
    (hok1 : ∀ mw ∈ cfg.middleware, mw.after.outcome = Outcome.ok)
    (hnr : ∀ mw ∈ cfg.middleware, redirTargets mw.before.ops = [] ∧
      redirTargets mw.after.ops = [])
    (hlast : (redirTargets cfg.actionBeh.ops).getLast? = some t) :
    (execute cfg args kwargs s0).trace.filterMap applyIdx = [t] := by
  have hbo : (runBefores
      (decodeStep cfg args kwargs { s0 with called_once := true }).1
      cfg.middleware 0).outcome = Outcome.ok :=
    runBefores_outcome_ok cfg.middleware _ 0 hbok
  have hexmem : ∀ p ∈ (runBefores
      (decodeStep cfg args kwargs { s0 with called_once := true }).1
      cfg.middleware 0).executed, p.2 ∈ cfg.middleware :=
    runBefores_executed_mem cfg.middleware _ 0
  have heq := execute_first_ok_eq cfg args kwargs s0 _ _ _ _ h0 hval rfl rfl
    hbo rfl hae rfl
  have hred : (runAction cfg
      (decodeStep cfg args kwargs { s0 with called_once := true }).2.2
      (runBefores (decodeStep cfg args kwargs { s0 with called_once := true }).1
        cfg.middleware 0).state).1.redirection = some t := by
    simp only [runAction]
    exact runOps_redirection_last _ _ t hlast
  rw [heq]
  simp only [List.filterMap_append,
    validate_filterMap_nil cfg applyIdx rfl,
    decode_filterMap_nil cfg args kwargs _ applyIdx (fun r => rfl) (fun n r => rfl),
    runBefores_filterMap_nil cfg.middleware _ 0 applyIdx (fun j => rfl) rfl,
    runAction_filterMap_nil cfg _ _ applyIdx (fun x => rfl) rfl,
    cleanup_filter_apply _ _ t
      (fun p hp => hok1 p.2 (hexmem p hp))
      (fun p hp => (hnr p.2 (hexmem p hp)).2) hred]
  simp [applyIdx]

/-- C10, witness: an action redirecting first to target 4, then to target
9; only target 9 is ever sent. -/
theorem last_redirect_wins_witness :
    (execute (mkConfig [noopMW]
        { ops := [HOp.hredirect 4, HOp.hredirect 9], outcome := Outcome.ok })
        [1] [] initHState).trace.filterMap applyIdx = [9] :=
  last_redirect_wins
    (mkConfig [noopMW]
      { ops := [HOp.hredirect 4, HOp.hredirect 9], outcome := Outcome.ok })
    [1] [] initHState 9 rfl rfl (by decide) (by decide) (by decide) (by decide)
    (by decide)

end TornadoMiddleware
